import Mathlib

/-!
# AVL tree (`avltree.c`, `avltree.h`)

A shallow embedding of the intrusive AVL tree of `avltree.c`, and of the parts of the test
program `avltest.c` that exercise it.

* A value of `avlnode α` stands for a `struct avlnode *` together with the nodes reachable
  from it: `null` is the null pointer, `mk l n height r` is a pointer to the node `n`
  whose fields are `l`, `height` and `r`.  The type `α` is the type of node identities
  (the address of the node, through which the comparators reach the enclosing record).
* The tree is thus represented by its unfolding from the root.  This is the linked
  structure in memory as long as no node is linked twice, which the operations preserve on
  ordered trees: `avltree_add` rejects a node that is already linked (it compares equal to
  itself), and when a node with two children is deleted the recursive call on `p->r`
  unlinks the successor `m` itself before `m` is linked in the place of `p`
  (`del_found_spec`).
* The fields of the node handed to `avltree_add` are passed along as an `avlfields` record
  until the node is linked; from then on they are the fields stored in the tree.
* An operation that dereferences a null pointer returns `none`.
* `int` values (heights, comparator results) are `Int`: a cached height that satisfies the
  AVL invariant is the height of the subtree, far below `2 ^ 31` for any tree that fits in
  memory.  `size_t` arithmetic on `count` is taken modulo `2 ^ 64`.
-/

namespace AvlTree

/-- The pointer type `struct avlnode *` of `avltree.h`, with the nodes reachable from it. -/
inductive avlnode (α : Type) where
  | null : avlnode α
  | mk (l : avlnode α) (n : α) (height : Int) (r : avlnode α) : avlnode α
deriving DecidableEq, Repr

/-- The fields `l`, `r`, `height` of one `struct avlnode` that is not linked into a tree. -/
structure avlfields (α : Type) where
  l : Option α
  r : Option α
  height : Int
deriving DecidableEq, Repr

/-- The mutable part of `struct avltree`: `root`, `count` and `ref`.  The hooks
`cmpnode`, `cmpkey` and `freenode` are fixed at `avltree_init` and are passed as
arguments to the operations. -/
structure avltree (α : Type) where
  root : avlnode α
  count : Nat
  ref : Option α
deriving DecidableEq, Repr

/-- Number of values of `size_t` (LP64). -/
def SIZE_MOD : Nat := 2 ^ 64

variable {α : Type} {κ : Type} {σ : Type}

/-- The function `imax` of `avltree.c`. -/
def imax (a b : Int) : Int := if a > b then a else b

/-- The function `avltree_node_height` of `avltree.h`: the cached height, `-1` for null. -/
def avltree_node_height : avlnode α → Int
  | .null => -1
  | .mk _ _ h _ => h

/-- The function `avltree_node_balance` of `avltree.h`. -/
def avltree_node_balance : avlnode α → Int
  | .null => 0
  | .mk l _ _ r => avltree_node_height l - avltree_node_height r

/-- The function `avltree_init` of `avltree.h` (the mutable fields). -/
def avltree_init : avltree α := { root := .null, count := 0, ref := none }

/-- The function `avltree_count` of `avltree.h`. -/
def avltree_count (tree : avltree α) : Nat := tree.count

/-- The function `avltree_empty` of `avltree.h`. -/
def avltree_empty (tree : avltree α) : Bool :=
  match tree.root with
  | .null => true
  | .mk _ _ _ _ => false

/-- The function `avltree_right_rotate` of `avltree.c`; `none` when `p` or `p->l` is null. -/
def avltree_right_rotate : avlnode α → Option (avlnode α)
  | .mk (.mk ll ln _ lr) n _ r =>
    let p := avlnode.mk lr n (imax (avltree_node_height lr) (avltree_node_height r) + 1) r
    some (.mk ll ln (imax (avltree_node_height ll) (avltree_node_height p) + 1) p)
  | _ => none

/-- The function `avltree_left_rotate` of `avltree.c`; `none` when `p` or `p->r` is null. -/
def avltree_left_rotate : avlnode α → Option (avlnode α)
  | .mk l n _ (.mk rl rn _ rr) =>
    let p := avlnode.mk l n (imax (avltree_node_height l) (avltree_node_height rl) + 1) rl
    some (.mk p rn (imax (avltree_node_height rr) (avltree_node_height p) + 1) rr)
  | _ => none

/-- The function `avltree_leftright_rotate` of `avltree.c`. -/
def avltree_leftright_rotate : avlnode α → Option (avlnode α)
  | .mk l n h r =>
    match avltree_left_rotate l with
    | some l' => avltree_right_rotate (.mk l' n h r)
    | none => none
  | .null => none

/-- The function `avltree_rightleft_rotate` of `avltree.c`. -/
def avltree_rightleft_rotate : avlnode α → Option (avlnode α)
  | .mk l n h r =>
    match avltree_right_rotate r with
    | some r' => avltree_left_rotate (.mk l n h r')
    | none => none
  | .null => none

/-- The statement `p->height = imax(avltree_node_height(p->l), avltree_node_height(p->r)) + 1`
(`avltree.c` lines 73, 124, 174); `none` when `p` is null. -/
def store_height : avlnode α → Option (avlnode α)
  | .mk l n _ r => some (.mk l n (imax (avltree_node_height l) (avltree_node_height r) + 1) r)
  | .null => none

/-- The call `cmpnode(p, node)` on a pointer `p`; `none` when `p` is null. -/
def cmpnode_at (cmpnode : α → α → Int) : avlnode α → α → Option Int
  | .mk _ n _ _, node => some (cmpnode n node)
  | .null, _ => none

/-- Lines 56-62 of `avltree_node_add`: the rotation after an insertion on the left of `p`. -/
def add_fix_left (cmpnode : α → α → Int) (p : avlnode α) (node : α) : Option (avlnode α) :=
  if avltree_node_balance p > 1 then
    match p with
    | .mk l _ _ _ =>
      match cmpnode_at cmpnode l node with
      | some c => if c > 0 then avltree_right_rotate p else avltree_leftright_rotate p
      | none => none
    | .null => none
  else some p

/-- Lines 65-71 of `avltree_node_add`: the rotation after an insertion on the right of `p`. -/
def add_fix_right (cmpnode : α → α → Int) (p : avlnode α) (node : α) : Option (avlnode α) :=
  if avltree_node_balance p < -1 then
    match p with
    | .mk _ _ _ r =>
      match cmpnode_at cmpnode r node with
      | some c => if c < 0 then avltree_left_rotate p else avltree_rightleft_rotate p
      | none => none
    | .null => none
  else some p

/-- The function `avltree_node_add` of `avltree.c`.  The result is the returned pointer,
the tree handle (`ref`, `count`) and the fields of `*node` as long as it is not linked. -/
def avltree_node_add (cmpnode : α → α → Int) (tree : avltree α) (mem : avlfields α) :
    avlnode α → α → Option (avlnode α × avltree α × avlfields α)
  | .null, node =>
    some (.mk .null node 0 .null,
      { tree with ref := some node, count := (tree.count + 1) % SIZE_MOD },
      { l := none, r := none, height := 0 })
  | .mk l n h r, node =>
    let cmp := cmpnode n node
    if cmp > 0 then
      match avltree_node_add cmpnode tree mem l node with
      | none => none
      | some (l', tree', mem') =>
        match add_fix_left cmpnode (.mk l' n h r) node with
        | none => none
        | some p => (store_height p).map fun p => (p, tree', mem')
    else if cmp < 0 then
      match avltree_node_add cmpnode tree mem r node with
      | none => none
      | some (r', tree', mem') =>
        match add_fix_right cmpnode (.mk l n h r') node with
        | none => none
        | some p => (store_height p).map fun p => (p, tree', mem')
    else
      (store_height (.mk l n h r)).map fun p => (p, tree, mem)

/-- The function `avltree_add` of `avltree.c`: the result is the return code, the tree
handle and the fields of `*node`. -/
def avltree_add (cmpnode : α → α → Int) (tree : avltree α) (node : α) (mem : avlfields α) :
    Option (Int × avltree α × avlfields α) :=
  match avltree_node_add cmpnode { tree with ref := none } mem tree.root node with
  | none => none
  | some (p, tree', mem') =>
    some ((if tree'.ref.isSome then 0 else -1), { tree' with root := p }, mem')

/-- The function `avltree_find` of `avltree.c`, as a descent from the pointer `c`. -/
def avltree_find_from (cmpkey : α → κ → Int) : avlnode α → κ → Option α
  | .null, _ => none
  | .mk l n _ r, key =>
    let cmp := cmpkey n key
    if cmp = 0 then some n
    else if cmp < 0 then avltree_find_from cmpkey r key
    else avltree_find_from cmpkey l key

/-- The function `avltree_find` of `avltree.c`: the tree handle after the call and the
returned node. -/
def avltree_find (cmpkey : α → κ → Int) (tree : avltree α) (key : κ) : avltree α × Option α :=
  (tree, avltree_find_from cmpkey tree.root key)

/-- The loop `while (m->l) m = m->l` of lines 115-116 and 165-166; `none` when `m` is null. -/
def smallest : avlnode α → Option (α × Int)
  | .null => none
  | .mk .null n h _ => some (n, h)
  | .mk (.mk ll ln lh lr) _ _ _ => smallest (.mk ll ln lh lr)

/-- Lines 123-138 and 173-188 of `avltree.c`: the height update and the rotation that end
`avltree_node_del_node` and `avltree_node_del_key`. -/
def del_fix (p : avlnode α) : Option (avlnode α) :=
  match p with
  | .null => some .null
  | .mk l n _ r =>
    let p := avlnode.mk l n (imax (avltree_node_height l) (avltree_node_height r) + 1) r
    let balance := avltree_node_balance p
    if balance > 1 then
      if avltree_node_balance l ≥ 0 then avltree_right_rotate p
      else avltree_leftright_rotate p
    else if balance < -1 then
      if avltree_node_balance r ≤ 0 then avltree_left_rotate p
      else avltree_rightleft_rotate p
    else some p

/-- The function `avltree_node_del_node` of `avltree.c`. -/
def avltree_node_del_node (cmpnode : α → α → Int) :
    avltree α → avlnode α → α → Option (avlnode α × avltree α)
  | tree, .null, _ => some (.null, tree)
  | tree, .mk l n h r, node =>
    let cmp := cmpnode n node
    if cmp > 0 then
      match avltree_node_del_node cmpnode tree l node with
      | none => none
      | some (l', tree') => (del_fix (.mk l' n h r)).map fun p => (p, tree')
    else if cmp < 0 then
      match avltree_node_del_node cmpnode tree r node with
      | none => none
      | some (r', tree') => (del_fix (.mk l n h r')).map fun p => (p, tree')
    else
      let tree1 : avltree α := { tree with ref := some n }
      match l, r with
      | l, .null => (del_fix l).map fun p => (p, tree1)
      | .null, r => (del_fix r).map fun p => (p, tree1)
      | l, r =>
        match smallest r with
        | none => none
        | some (m, mh) =>
          match avltree_node_del_node cmpnode tree1 r m with
          | none => none
          | some (r', tree2) =>
            (del_fix (.mk l m mh r')).map fun p => (p, { tree2 with ref := some n })

/-- The function `avltree_node_del` of `avltree.c`: the tree handle after the call and the
returned node. -/
def avltree_node_del (cmpnode : α → α → Int) (tree : avltree α) (node : α) :
    Option (avltree α × Option α) :=
  match avltree_node_del_node cmpnode { tree with ref := none } tree.root node with
  | none => none
  | some (p, tree') =>
    let tree2 : avltree α := { tree' with root := p }
    let tree3 : avltree α :=
      if tree2.ref.isSome then { tree2 with count := (tree2.count + SIZE_MOD - 1) % SIZE_MOD }
      else tree2
    some (tree3, tree3.ref)

/-- The function `avltree_node_del_key` of `avltree.c`. -/
def avltree_node_del_key (cmpnode : α → α → Int) (cmpkey : α → κ → Int) :
    avltree α → avlnode α → κ → Option (avlnode α × avltree α)
  | tree, .null, _ => some (.null, tree)
  | tree, .mk l n h r, key =>
    let cmp := cmpkey n key
    if cmp > 0 then
      match avltree_node_del_key cmpnode cmpkey tree l key with
      | none => none
      | some (l', tree') => (del_fix (.mk l' n h r)).map fun p => (p, tree')
    else if cmp < 0 then
      match avltree_node_del_key cmpnode cmpkey tree r key with
      | none => none
      | some (r', tree') => (del_fix (.mk l n h r')).map fun p => (p, tree')
    else
      let tree1 : avltree α := { tree with ref := some n }
      match l, r with
      | l, .null => (del_fix l).map fun p => (p, tree1)
      | .null, r => (del_fix r).map fun p => (p, tree1)
      | l, r =>
        match smallest r with
        | none => none
        | some (m, mh) =>
          match avltree_node_del_node cmpnode tree1 r m with
          | none => none
          | some (r', tree2) =>
            (del_fix (.mk l m mh r')).map fun p => (p, { tree2 with ref := some n })

/-- The function `avltree_del` of `avltree.c`: the tree handle after the call and the
returned node. -/
def avltree_del (cmpnode : α → α → Int) (cmpkey : α → κ → Int) (tree : avltree α) (key : κ) :
    Option (avltree α × Option α) :=
  match avltree_node_del_key cmpnode cmpkey { tree with ref := none } tree.root key with
  | none => none
  | some (p, tree') =>
    let tree2 : avltree α := { tree' with root := p }
    let tree3 : avltree α :=
      if tree2.ref.isSome then { tree2 with count := (tree2.count + SIZE_MOD - 1) % SIZE_MOD }
      else tree2
    some (tree3, tree3.ref)

/-- The destructor calls of `avltree_node_free` of `avltree.c`, in call order. -/
def avltree_node_free : avlnode α → List α
  | .null => []
  | .mk l n _ r => avltree_node_free l ++ avltree_node_free r ++ [n]

/-- The function `avltree_free` of `avltree.c`: the tree handle after the call and the
nodes handed to `freenode`, in call order. -/
def avltree_free (tree : avltree α) : avltree α × List α :=
  ({ tree with root := .null }, avltree_node_free tree.root)

/-! ## The test program `avltest.c` -/

/-- The record `struct area` of `avltest.c` (its `addr` and `size`). -/
structure area where
  addr : Int
  size : Int
deriving DecidableEq, Repr

/-- The comparator `area_cmp_node` of `avltest.c`. -/
def area_cmp_node (a1 a2 : area) : Int :=
  if a1.addr = a2.addr then 0 else if a1.addr < a2.addr then -1 else 1

/-- The comparator `area_cmp_addr` of `avltest.c`. -/
def area_cmp_addr (a : area) (addr : Int) : Int :=
  if a.addr ≤ addr ∧ a.addr + a.size > addr then 0 else if a.addr < addr then -1 else 1

/-- The loop "Add elements to the tree" of `main` in `avltest.c` (lines 140-146), counting
`addr` down to 1: every node comes zeroed from `calloc`, with size 1; `none` when the
assertion `rc == 0` fails. -/
def test_add_loop : Nat → avltree area → Option (avltree area)
  | 0, tree => some tree
  | addr + 1, tree =>
    match avltree_add area_cmp_node tree ⟨(addr + 1 : Nat), 1⟩ ⟨none, none, 0⟩ with
    | some (rc, tree', _) => if rc = 0 then test_add_loop addr tree' else none
    | none => none

/-- The tree of `avltest.c` after its add loop with `count` nodes (the empty tree if the
loop fails). -/
def test_tree (count : Nat) : avltree area :=
  (test_add_loop count avltree_init).getD avltree_init

/-- Two areas with overlapping address ranges, `[1, 3)` and `[2, 4)`: the tree that
`avltree_add` builds from the empty tree with the addresses 1 and 2, each of size 2. -/
def overlap_tree : avltree area :=
  { root := .mk .null ⟨1, 2⟩ 1 (.mk .null ⟨2, 2⟩ 0 .null), count := 2, ref := some ⟨2, 2⟩ }

/-- Two nested address ranges, `[2, 3)` inside `[1, 6)`: the tree that `avltree_add` builds
from the empty tree with the address 2 of size 1 and then the address 1 of size 5. -/
def nested_tree : avltree area :=
  { root := .mk (.mk .null ⟨1, 5⟩ 0 .null) ⟨2, 1⟩ 1 .null, count := 2, ref := some ⟨1, 5⟩ }

/-! ## Specification vocabulary -/

/-- The height of a tree, counted in links: `-1` for the empty tree, `0` for a leaf. -/
def height : avlnode α → Int
  | .null => -1
  | .mk l _ _ r => max (height l) (height r) + 1

/-- The in-order (left, self, right) sequence of the nodes of a tree. -/
def inorder : avlnode α → List α
  | .null => []
  | .mk l n _ r => inorder l ++ n :: inorder r

/-- The number of nodes reachable from a pointer. -/
def node_count : avlnode α → Nat
  | .null => 0
  | .mk l _ _ r => node_count l + 1 + node_count r

/-- The AVL invariant: at every node the heights of the two subtrees differ by at most 1
and the cached height is `max(height(left), height(right)) + 1`. -/
def AVL : avlnode α → Prop
  | .null => True
  | .mk l _ h r =>
    AVL l ∧ AVL r ∧ |height l - height r| ≤ 1 ∧ h = max (height l) (height r) + 1

/-- The AVL invariant can be checked by running over the tree. -/
instance AVL.decidable : (t : avlnode α) → Decidable (AVL t)
  | .null => isTrue trivial
  | .mk l _ h r =>
    match AVL.decidable l, AVL.decidable r with
    | isTrue hl, isTrue hr =>
      if hb : |height l - height r| ≤ 1 ∧ h = max (height l) (height r) + 1 then
        isTrue ⟨hl, hr, hb.1, hb.2⟩
      else isFalse fun hh => hb ⟨hh.2.2.1, hh.2.2.2⟩
    | isFalse hl, _ => isFalse fun hh => hl hh.1
    | _, isFalse hr => isFalse fun hh => hr hh.2.1

/-- The function `check_height` of `avltest.c`; `none` when one of its assertions fails. -/
def check_height : avlnode α → Option Int
  | .null => some (-1)
  | .mk l _ h r =>
    match check_height l, check_height r with
    | some dl, some dr =>
      let diff := dl - dr
      let diff := if diff < 0 then diff * -1 else diff
      if diff < 2 then
        let m := if dl > dr then dl else dr
        if h = m + 1 then some h else none
      else none
    | _, _ => none

/-- The tree is ordered by the node comparator: its in-order sequence is strictly
ascending (`cmp a b < 0` reads "`a` is below `b`"). -/
def Ordered (cmp : α → α → Int) (t : avlnode α) : Prop :=
  (inorder t).Pairwise (fun a b => cmp a b < 0)

/-- Orderedness can be checked by running over the in-order sequence. -/
instance Ordered.decidable (cmp : α → α → Int) (t : avlnode α) : Decidable (Ordered cmp t) :=
  inferInstanceAs (Decidable ((inorder t).Pairwise (fun a b => cmp a b < 0)))

/-- The node comparator is a strict total order on the keys the nodes carry: the sign of
`cmp a b` is reversed by swapping the arguments, "below" is transitive, and nodes that
compare equal (the same key) compare alike with every other node. -/
structure StrictTotalOrder (cmp : α → α → Int) : Prop where
  swap : ∀ a b, cmp a b < 0 ↔ 0 < cmp b a
  trans : ∀ a b c, cmp a b < 0 → cmp b c < 0 → cmp a c < 0
  eq_lt : ∀ a b c, cmp a b = 0 → cmp b c < 0 → cmp a c < 0

/-- The tree is ordered consistently with the node-vs-key comparator for the key `key`:
along the in-order sequence the sign of `cmpkey · key` never decreases (nodes left of
the key first, then the nodes that match, then the nodes right of the key). -/
def KeyOrdered (cmpkey : α → κ → Int) (key : κ) (t : avlnode α) : Prop :=
  (inorder t).Pairwise
    (fun a b => (cmpkey b key < 0 → cmpkey a key < 0) ∧ (0 < cmpkey a key → 0 < cmpkey b key))

/-- Key-orderedness can be checked by running over the in-order sequence. -/
instance KeyOrdered.decidable (cmpkey : α → κ → Int) (key : κ) (t : avlnode α) :
    Decidable (KeyOrdered cmpkey key t) :=
  inferInstanceAs (Decidable ((inorder t).Pairwise _))

/-- The shape of a subtree whose height an insertion of `node` has just increased: the
root does not compare equal to `node` and the side `node` went to is the higher one. -/
def Grown (cmp : α → α → Int) (node : α) : avlnode α → Prop
  | .null => False
  | .mk l n _ r =>
    cmp n node ≠ 0 ∧ (0 < cmp n node → height r < height l) ∧
      (cmp n node < 0 → height l < height r)

/-- Lines 108-121 of `avltree_node_del_node` (the same as lines 158-171 of
`avltree_node_del_key`): unlinking the node `n`, whose children are `l` and `r`. -/
def del_found (cmpnode : α → α → Int) (tree : avltree α) (l : avlnode α) (n : α)
    (r : avlnode α) : Option (avlnode α × avltree α) :=
  let tree1 : avltree α := { tree with ref := some n }
  match l, r with
  | l, .null => (del_fix l).map fun p => (p, tree1)
  | .null, r => (del_fix r).map fun p => (p, tree1)
  | l, r =>
    match smallest r with
    | none => none
    | some (m, mh) =>
      match avltree_node_del_node cmpnode tree1 r m with
      | none => none
      | some (r', tree2) =>
        (del_fix (.mk l m mh r')).map fun p => (p, { tree2 with ref := some n })

/-- What a deletion routine guarantees when it runs on the subtree `p` with the tree handle
`tree` and returns `res`; `hit e` says that the node `e` matches what is searched and
`miss e` is what is known of a node the search has excluded.  The result is AVL, at most
one level lower, `root` and `count` are not written, and either the search has excluded
every node of `p` and nothing changes, or a matching node is unlinked and recorded in
`ref`, the other nodes keeping their order. -/
def DelPost (hit miss : α → Prop) (tree : avltree α) (p : avlnode α)
    (res : avlnode α × avltree α) : Prop :=
  AVL res.1 ∧ (height res.1 = height p ∨ height res.1 + 1 = height p) ∧
  res.2.root = tree.root ∧ res.2.count = tree.count ∧
  (((∀ e ∈ inorder p, miss e) ∧ res.1 = p ∧ res.2.ref = tree.ref) ∨
   (∃ e xs ys, hit e ∧ inorder p = xs ++ e :: ys ∧ inorder res.1 = xs ++ ys ∧
      res.2.ref = some e))

/-! ## Traversals and teardown -/

/-- The test `if (p)` of a pointer: `true` when `p` is not null. -/
def non_null : avlnode α → Bool
  | .null => false
  | .mk _ _ _ _ => true

/-- The function `avltree_node_inorder` of `avltree.c`.  The callback `cb` gets the node and
the user context (the state behind `ptr`, of type `σ`) and returns its signal and the
context as it leaves it; the result is the returned node and the context after the walk. -/
def avltree_node_inorder (cb : α → σ → Int × σ) : avlnode α → σ → Option α × σ
  | .null, s => (none, s)
  | .mk l c _ r, s =>
    let resl := if non_null l then avltree_node_inorder cb l s else (none, s)
    match resl.1 with
    | some n => (some n, resl.2)
    | none =>
      let rc := cb c resl.2
      if rc.1 ≠ 0 then (some c, rc.2)
      else if non_null r then
        let resr := avltree_node_inorder cb r rc.2
        match resr.1 with
        | some n => (some n, resr.2)
        | none => (none, resr.2)
      else (none, rc.2)

/-- The function `avltree_inorder` of `avltree.c`. -/
def avltree_inorder (cb : α → σ → Int × σ) (tree : avltree α) (s : σ) : Option α × σ :=
  if non_null tree.root then avltree_node_inorder cb tree.root s else (none, s)

/-- The function `avltree_node_preorder` of `avltree.c`. -/
def avltree_node_preorder (cb : α → σ → Int × σ) : avlnode α → σ → Option α × σ
  | .null, s => (none, s)
  | .mk l c _ r, s =>
    let rc := cb c s
    if rc.1 ≠ 0 then (some c, rc.2)
    else
      let resl := if non_null l then avltree_node_preorder cb l rc.2 else (none, rc.2)
      match resl.1 with
      | some n => (some n, resl.2)
      | none =>
        if non_null r then
          let resr := avltree_node_preorder cb r resl.2
          match resr.1 with
          | some n => (some n, resr.2)
          | none => (none, resr.2)
        else (none, resl.2)

/-- The function `avltree_preorder` of `avltree.c`. -/
def avltree_preorder (cb : α → σ → Int × σ) (tree : avltree α) (s : σ) : Option α × σ :=
  if non_null tree.root then avltree_node_preorder cb tree.root s else (none, s)

/-- The function `avltree_node_revorder` of `avltree.c`. -/
def avltree_node_revorder (cb : α → σ → Int × σ) : avlnode α → σ → Option α × σ
  | .null, s => (none, s)
  | .mk l c _ r, s =>
    let resr := if non_null r then avltree_node_revorder cb r s else (none, s)
    match resr.1 with
    | some n => (some n, resr.2)
    | none =>
      let rc := cb c resr.2
      if rc.1 ≠ 0 then (some c, rc.2)
      else if non_null l then
        let resl := avltree_node_revorder cb l rc.2
        match resl.1 with
        | some n => (some n, resl.2)
        | none => (none, resl.2)
      else (none, rc.2)

/-- The function `avltree_revorder` of `avltree.c`. -/
def avltree_revorder (cb : α → σ → Int × σ) (tree : avltree α) (s : σ) : Option α × σ :=
  if non_null tree.root then avltree_node_revorder cb tree.root s else (none, s)

/-- The pre-order (self, left, right) sequence of the nodes of a tree. -/
def preorder : avlnode α → List α
  | .null => []
  | .mk l n _ r => n :: (preorder l ++ preorder r)

/-- The reverse-order (right, self, left) sequence of the nodes of a tree. -/
def revorder : avlnode α → List α
  | .null => []
  | .mk l n _ r => revorder r ++ n :: revorder l

/-- A walk over the nodes `xs` in this order, as the traversals are specified: the callback
is called on one node after the other, each call getting the context the previous one
left; the walk stops at the first node for which the callback returns non-zero and returns
that node; it returns none when the nodes are exhausted. -/
def walk (cb : α → σ → Int × σ) : List α → σ → Option α × σ
  | [], s => (none, s)
  | x :: xs, s => if (cb x s).1 ≠ 0 then (some x, (cb x s).2) else walk cb xs (cb x s).2

/-- A callback that records the node in the context and lets the walk go on. -/
def record_cb (n : α) (visited : List α) : Int × List α := (0, visited ++ [n])

/-- A callback that records the node in the context and stops the walk at the node
`stop`. -/
def record_until [DecidableEq α] (stop : α) (n : α) (visited : List α) : Int × List α :=
  (if n = stop then 1 else 0, visited ++ [n])
/-- The callback `check_order` of `avltest.c`.  The context is the node behind `ctx` (the
node visited last, none at the start) and a flag that is `true` as long as no assertion
has failed. -/
def check_order (n : area) (ctx : Option area × Bool) : Int × (Option area × Bool) :=
  match ctx.1 with
  | some p => (0, (some n, ctx.2 && decide (n.addr > p.addr)))
  | none => (0, (some n, ctx.2))

/-- The callback `check_rorder` of `avltest.c`, with the context of `check_order`. -/
def check_rorder (n : area) (ctx : Option area × Bool) : Int × (Option area × Bool) :=
  match ctx.1 with
  | some p => (0, (some n, ctx.2 && decide (n.addr < p.addr)))
  | none => (0, (some n, ctx.2))

/-- The trees built from the empty tree by a sequence of calls of `avltree_add`,
`avltree_del` and `avltree_node_del`. -/
inductive Built (cmpnode : α → α → Int) (cmpkey : α → κ → Int) : avltree α → Prop
  | init : Built cmpnode cmpkey avltree_init
  | add (tree tree' : avltree α) (node : α) (mem mem' : avlfields α) (rc : Int) :
      Built cmpnode cmpkey tree → avltree_add cmpnode tree node mem = some (rc, tree', mem') →
      Built cmpnode cmpkey tree'
  | del (tree tree' : avltree α) (key : κ) (ret : Option α) :
      Built cmpnode cmpkey tree → avltree_del cmpnode cmpkey tree key = some (tree', ret) →
      Built cmpnode cmpkey tree'
  | node_del (tree tree' : avltree α) (node : α) (ret : Option α) :
      Built cmpnode cmpkey tree → avltree_node_del cmpnode tree node = some (tree', ret) →
      Built cmpnode cmpkey tree'
/-- What a traversal whose callback records its calls (after the calls `v` recorded
before) and stops where `f` is non-zero returns on the nodes `xs`, taken in this order:
either `f` is zero on all of them, the traversal returns none and has recorded them all;
or it returns the first node `x` where `f` is non-zero and has recorded the nodes before
`x`, and `x`, and no node after `x`. -/
def FirstStop (f : α → Int) (xs v : List α) (res : Option α × List α) : Prop :=
  ((∀ y ∈ xs, f y = 0) ∧ res = (none, v ++ xs)) ∨
  (∃ pre x post, xs = pre ++ x :: post ∧ (∀ y ∈ pre, f y = 0) ∧ f x ≠ 0 ∧
    res = (some x, v ++ pre ++ [x]))

/-- The pointer `s` is the pointer `t` or is reachable from it. -/
def Subtree (s : avlnode α) : avlnode α → Prop
  | .null => s = .null
  | .mk l n h r => s = .mk l n h r ∨ Subtree s l ∨ Subtree s r

/-- The function `avltree_free` in a run of the program: `calls` lists the nodes handed to
the destructor hook `tree->freenode` so far, in call order. -/
def avltree_free_run (tree : avltree α) (calls : List α) : avltree α × List α :=
  ((avltree_free tree).1, calls ++ (avltree_free tree).2)

/-- The function `avltree_del` in a run of the program.  Lines 149-197 of `avltree.c`, and
the functions called there (`avltree_node_del_node`, the rotations, the accessors), contain
no call of `tree->freenode`: the list of destructor calls is handed on as it is. -/
def avltree_del_run (cmpnode : α → α → Int) (cmpkey : α → κ → Int) (tree : avltree α)
    (key : κ) (calls : List α) : Option (avltree α × Option α) × List α :=
  (avltree_del cmpnode cmpkey tree key, calls)

/-- The function `avltree_node_del` in a run of the program.  Lines 99-147 of `avltree.c`,
and the functions called there, contain no call of `tree->freenode`. -/
def avltree_node_del_run (cmpnode : α → α → Int) (tree : avltree α) (node : α)
    (calls : List α) : Option (avltree α × Option α) × List α :=
  (avltree_node_del cmpnode tree node, calls)

/-- Whether a pointer is reachable from another can be checked by running over the tree. -/
instance Subtree.decidable [DecidableEq α] (s : avlnode α) :
    (t : avlnode α) → Decidable (Subtree s t)
  | .null => inferInstanceAs (Decidable (s = .null))
  | .mk l n h r =>
    match Subtree.decidable s l, Subtree.decidable s r with
    | isTrue hl, _ => isTrue (Or.inr (Or.inl hl))
    | _, isTrue hr => isTrue (Or.inr (Or.inr hr))
    | isFalse hl, isFalse hr =>
      if e : s = .mk l n h r then isTrue (Or.inl e)
      else isFalse fun hh => hh.elim e fun hh => hh.elim hl hr

/-- The left child of the node with address 5 in the 16-node tree of the test program. -/
def test_left_of_5 : avlnode area :=
  .mk (.mk (.mk .null ⟨1, 1⟩ 0 .null) ⟨2, 1⟩ 1 .null) ⟨3, 1⟩ 2 (.mk .null ⟨4, 1⟩ 0 .null)

/-- The right child of the node with address 5 in the 16-node tree of the test program. -/
def test_right_of_5 : avlnode area :=
  .mk (.mk .null ⟨6, 1⟩ 0 .null) ⟨7, 1⟩ 1 (.mk .null ⟨8, 1⟩ 0 .null)

/-! ## Global rebalancing (Day-Stout-Warren) -/

/-- A bound on the number of steps the loop of `avlnode_to_list` has left at `rest`: a
rotation moves a node out of a left subtree, the other branch consumes a node. -/
def to_list_measure : avlnode α → Nat
  | .null => 0
  | .mk l _ _ r => 2 * to_list_measure l + 1 + to_list_measure r

/-- The function `avlnode_to_list` of `avltree.c`.  The pseudo-root `root` is represented
by its field `r`: the argument is `rest = tail->r` at the head of the loop (first
`root->r`), the result is the new `tail->r` and the value of `*size`. -/
def avlnode_to_list : avlnode α → Nat → avlnode α × Nat
  | .null, size => (.null, size)
  | .mk .null n _ r, size =>
    let res := avlnode_to_list r ((size + 1) % SIZE_MOD)
    (.mk .null n 0 res.1, res.2)
  | .mk (.mk tl tn th tr) n h r, size =>
    avlnode_to_list (.mk tl tn th (.mk tr n h r)) size
termination_by t => to_list_measure t
decreasing_by
  all_goals simp_wf
  all_goals simp only [to_list_measure]
  all_goals omega

/-- The function `compress` of `avltree.c`.  The pointer `scan` (first the pseudo-root) is
represented by its field `r`: the argument is `scan->r` at the head of the loop, the
result is the new `scan->r`; `none` when `scan->r` or `scan->r->r` is null. -/
def compress : avlnode α → Nat → Option (avlnode α)
  | r, 0 => some r
  | .mk cl cn ch (.mk l2 n2 _ r2), i + 1 =>
    match compress r2 i with
    | some r2' => some (.mk (.mk cl cn ch l2) n2 (imax ch (avltree_node_height r2) + 1) r2')
    | none => none
  | _, _ + 1 => none

/-- The loop `while (size > 1)` of `avlnode_from_list`, on `root->r`. -/
def from_list_loop (r : avlnode α) (size : Nat) : Option (avlnode α) :=
  if 1 < size then
    match compress r (size / 2) with
    | some r' => from_list_loop r' (size / 2)
    | none => none
  else some r
termination_by size
decreasing_by omega

/-- The expression `1 << pow` of `avlnode_from_list`, of type `int` (32 bits): undefined,
`none`, when `2 ^ pow` is not an `int`. -/
def one_shl (pow : Nat) : Option Nat := if pow < 31 then some (2 ^ pow) else none

/-- The function `avlnode_from_list` of `avltree.c`, on `root->r`.  `(size_t) log2(size + 1)`
is the floor of the binary logarithm, `Nat.log 2`; the `size_t` operations do not wrap
when the shift is defined, as then `2 ^ pow ≤ size + 1 < 2 ^ 31`. -/
def avlnode_from_list (r : avlnode α) (size : Nat) : Option (avlnode α) :=
  let pow := Nat.log 2 (size + 1)
  match one_shl pow with
  | none => none
  | some p =>
    let leaves := size + 1 - p
    match compress r leaves with
    | none => none
    | some r' => from_list_loop r' (size - leaves)

/-- The function `avltree_balance` of `avltree.c`. -/
def avltree_balance (tree : avltree α) : Option (avltree α) :=
  if non_null tree.root then
    let res := avlnode_to_list tree.root 0
    match avlnode_from_list res.1 res.2 with
    | some r => some { tree with root := r }
    | none => none
  else some tree

/-- The right-only chain of the nodes `xs`, every cached height 0: the list that
`avlnode_to_list` builds. -/
def chain : List α → avlnode α
  | [] => .null
  | x :: xs => .mk .null x 0 (chain xs)

/-- The shape of `root->r` between two passes of `compress`: a right spine whose nodes have
the cached heights `hs`, each with an AVL left subtree one lower than its cached height,
ending in the pointer `T`. -/
def Spine : List Int → avlnode α → avlnode α → Prop
  | [], T, t => t = T
  | h :: hs, T, t =>
    ∃ L x r, t = .mk L x h r ∧ AVL L ∧ height L = h - 1 ∧ Spine hs T r

/-- What holds of a spine between two passes of `compress`: the cached heights `hs` do not
increase along the spine, the end `T` of the spine is AVL and every cached height of the
spine is 1 or 2 above the height of `T`. -/
def SpineInv (hs : List Int) (T : avlnode α) : Prop :=
  hs.Pairwise (fun a b => b ≤ a) ∧ AVL T ∧ ∀ b ∈ hs, height T + 1 ≤ b ∧ b ≤ height T + 2

/-- A right-only chain of `n` nodes under a tree handle: the nodes are `0 .. n - 1` in
ascending order, every cached height is 0, and `count` is `n`. -/
def vine (n : Nat) : avltree Nat :=
  { root := chain (List.range n), count := n, ref := none }

/-! ## Basic facts -/

theorem imax_eq (a b : Int) : imax a b = max a b := by
  unfold imax; split <;> omega

@[simp] theorem height_null : height (avlnode.null : avlnode α) = -1 := rfl

@[simp] theorem height_mk (l : avlnode α) (n : α) (h : Int) (r : avlnode α) :
    height (.mk l n h r) = max (height l) (height r) + 1 := rfl

@[simp] theorem node_height_null : avltree_node_height (avlnode.null : avlnode α) = -1 := rfl

@[simp] theorem node_height_mk (l : avlnode α) (n : α) (h : Int) (r : avlnode α) :
    avltree_node_height (.mk l n h r) = h := rfl

@[simp] theorem inorder_null : inorder (avlnode.null : avlnode α) = [] := rfl

@[simp] theorem inorder_mk (l : avlnode α) (n : α) (h : Int) (r : avlnode α) :
    inorder (.mk l n h r) = inorder l ++ n :: inorder r := rfl

theorem height_ge (t : avlnode α) : -1 ≤ height t := by
  cases t with
  | null => simp
  | mk l n h r => rw [height_mk]; have := height_ge l; omega

theorem height_eq_neg_one {t : avlnode α} (h : height t ≤ -1) : t = .null := by
  cases t with
  | null => rfl
  | mk l n c r =>
    rw [height_mk] at h; have := height_ge l; omega

theorem node_count_eq (t : avlnode α) : node_count t = (inorder t).length := by
  induction t with
  | null => rfl
  | mk l n h r ihl ihr => simp [node_count, ihl, ihr]; omega

theorem AVL_null : AVL (avlnode.null : avlnode α) := trivial

theorem AVL_mk_iff (l : avlnode α) (n : α) (h : Int) (r : avlnode α) :
    AVL (.mk l n h r) ↔ AVL l ∧ AVL r ∧ height l ≤ height r + 1 ∧ height r ≤ height l + 1 ∧
      h = max (height l) (height r) + 1 := by
  simp only [AVL, abs_le]
  constructor <;> intro ⟨a, b, c, d⟩ <;> refine ⟨a, b, ?_⟩ <;> omega

theorem AVL.cached {t : avlnode α} (h : AVL t) : avltree_node_height t = height t := by
  cases t with
  | null => rfl
  | mk l n c r => rw [AVL_mk_iff] at h; simp [h.2.2.2.2]

/-- The function `check_height` of the test program passes its assertions exactly on the
trees that satisfy the AVL invariant, and then returns the height. -/
theorem check_height_iff : ∀ (t : avlnode α) (d : Int),
    check_height t = some d ↔ AVL t ∧ d = height t := by
  intro t
  induction t with
  | null =>
    intro d
    simp only [check_height, Option.some.injEq, AVL_null, height_null, true_and]
    exact eq_comm
  | mk l n h r ihl ihr =>
    intro d
    rw [AVL_mk_iff, height_mk]
    cases hl : check_height l with
    | none =>
      simp only [check_height, hl]
      constructor
      · intro h; cases h
      · intro h
        have := (ihl (height l)).2 ⟨h.1.1, rfl⟩
        rw [hl] at this
        cases this
    | some dl =>
      cases hr : check_height r with
      | none =>
        simp only [check_height, hl, hr]
        constructor
        · intro h; cases h
        · intro h
          have := (ihr (height r)).2 ⟨h.1.2.1, rfl⟩
          rw [hr] at this
          cases this
      | some dr =>
        obtain ⟨al, rfl⟩ := (ihl dl).1 hl
        obtain ⟨ar, rfl⟩ := (ihr dr).1 hr
        simp only [check_height, hl, hr]
        constructor
        · intro hh
          split_ifs at hh
          all_goals
            cases hh
            refine ⟨⟨al, ar, ?_, ?_, ?_⟩, ?_⟩ <;> omega
        · rintro ⟨⟨-, -, b1, b2, e⟩, rfl⟩
          split_ifs <;> first | omega | exact congrArg some e

theorem Ordered_mk_iff (cmp : α → α → Int) (l : avlnode α) (n : α) (h : Int) (r : avlnode α) :
    Ordered cmp (.mk l n h r) ↔ Ordered cmp l ∧ Ordered cmp r ∧ (∀ a ∈ inorder l, cmp a n < 0) ∧
      (∀ b ∈ inorder r, cmp n b < 0) ∧ (∀ a ∈ inorder l, ∀ b ∈ inorder r, cmp a b < 0) := by
  simp only [Ordered, inorder_mk, List.pairwise_append, List.pairwise_cons, List.mem_cons,
    forall_eq_or_imp]
  constructor
  · rintro ⟨a, ⟨b, c⟩, d⟩
    exact ⟨a, c, fun x hx => (d x hx).1, b, fun x hx => (d x hx).2⟩
  · rintro ⟨a, b, c, d, e⟩
    exact ⟨a, ⟨d, b⟩, fun x hx => ⟨c x hx, e x hx⟩⟩

theorem StrictTotalOrder.irrefl {cmp : α → α → Int} (hc : StrictTotalOrder cmp) (a : α) :
    cmp a a = 0 := by
  have h1 := hc.swap a a
  omega

theorem StrictTotalOrder.eq_symm {cmp : α → α → Int} (hc : StrictTotalOrder cmp) {a b : α}
    (h : cmp a b = 0) : cmp b a = 0 := by
  have h1 := hc.swap a b
  have h2 := hc.swap b a
  omega

theorem StrictTotalOrder.eq_gt {cmp : α → α → Int} (hc : StrictTotalOrder cmp) {a b c : α}
    (h : cmp a b = 0) (h2 : cmp c b < 0) : cmp c a < 0 := by
  rcases lt_trichotomy (cmp c a) 0 with h3 | h3 | h3
  · exact h3
  · have h4 := hc.eq_lt _ _ _ (hc.eq_symm h3) h2
    omega
  · have h4 := (hc.swap a c).2 h3
    have h5 := hc.trans _ _ _ h4 h2
    omega

/-! ## Rotations -/

theorem right_rotate_inorder {p q : avlnode α} (h : avltree_right_rotate p = some q) :
    inorder q = inorder p := by
  unfold avltree_right_rotate at h
  split at h
  · cases h; simp
  · cases h

theorem left_rotate_inorder {p q : avlnode α} (h : avltree_left_rotate p = some q) :
    inorder q = inorder p := by
  unfold avltree_left_rotate at h
  split at h
  · cases h; simp
  · cases h

/-- The end of both deletion routines on a node whose subtrees are AVL and differ in height
by at most 2: the node is rebalanced, its in-order sequence kept; it is left alone (but
for the height update) when its subtrees differ by at most 1. -/
theorem del_fix_spec (l r : avlnode α) (n : α) (h : Int) (hl : AVL l) (hr : AVL r)
    (h1 : height l ≤ height r + 2) (h2 : height r ≤ height l + 2) :
    ∃ p, del_fix (.mk l n h r) = some p ∧ AVL p ∧
      inorder p = inorder l ++ n :: inorder r ∧
      max (height l) (height r) ≤ height p ∧ height p ≤ max (height l) (height r) + 1 ∧
      (height l ≤ height r + 1 → height r ≤ height l + 1 →
        p = .mk l n (max (height l) (height r) + 1) r) := by
  simp only [del_fix, avltree_node_balance, node_height_mk, hl.cached, hr.cached, imax_eq]
  by_cases c1 : height l - height r > 1
  · rw [if_pos c1]
    cases l with
    | null => simp at c1; have := height_ge r; omega
    | mk ll ln lh lr =>
      rw [AVL_mk_iff] at hl
      obtain ⟨hll, hlr, b1, b2, e⟩ := hl
      simp only [height_mk] at c1 h1 h2 ⊢
      simp only [avltree_node_balance, hll.cached, hlr.cached]
      by_cases c2 : height ll - height lr ≥ 0
      · rw [if_pos c2]
        refine ⟨_, rfl, ?_, by simp, ?_⟩
        · simp only [AVL_mk_iff, imax_eq, node_height_mk, hll.cached, hlr.cached, hr.cached,
            height_mk, hll, hlr, hr, true_and, and_true]
          omega
        · simp only [height_mk]; omega
      · rw [if_neg c2]
        cases lr with
        | null => simp at c2; have := height_ge ll; omega
        | mk a z zh b =>
          rw [AVL_mk_iff] at hlr
          obtain ⟨ha, hb, b3, b4, e2⟩ := hlr
          simp only [height_mk] at c1 c2 h1 h2 b1 b2 ⊢
          refine ⟨_, rfl, ?_, by simp, ?_⟩
          · simp only [AVL_mk_iff, imax_eq, node_height_mk, hll.cached, ha.cached, hb.cached,
              hr.cached, height_mk, hll, ha, hb, hr, true_and, and_true]
            omega
          · simp only [height_mk]; omega
  · rw [if_neg c1]
    by_cases c3 : height l - height r < -1
    · rw [if_pos c3]
      cases r with
      | null => simp at c3; have := height_ge l; omega
      | mk rl rn rh rr =>
        rw [AVL_mk_iff] at hr
        obtain ⟨hrl, hrr, b1, b2, e⟩ := hr
        simp only [height_mk] at c1 c3 h1 h2 ⊢
        simp only [avltree_node_balance, hrl.cached, hrr.cached]
        by_cases c2 : height rl - height rr ≤ 0
        · rw [if_pos c2]
          refine ⟨_, rfl, ?_, by simp, ?_⟩
          · simp only [AVL_mk_iff, imax_eq, node_height_mk, hrl.cached, hrr.cached, hl.cached,
              height_mk, hrl, hrr, hl, true_and, and_true]
            omega
          · simp only [height_mk]; omega
        · rw [if_neg c2]
          cases rl with
          | null => simp at c2; have := height_ge rr; omega
          | mk a z zh b =>
            rw [AVL_mk_iff] at hrl
            obtain ⟨ha, hb, b3, b4, e2⟩ := hrl
            simp only [height_mk] at c1 c2 c3 h1 h2 b1 b2 ⊢
            refine ⟨_, rfl, ?_, by simp, ?_⟩
            · simp only [AVL_mk_iff, imax_eq, node_height_mk, hrr.cached, ha.cached, hb.cached,
                hl.cached, height_mk, hrr, ha, hb, hl, true_and, and_true]
              omega
            · simp only [height_mk]; omega
    · rw [if_neg c3]
      refine ⟨_, rfl, ?_, by simp, ?_⟩
      · rw [AVL_mk_iff]; exact ⟨hl, hr, by omega, by omega, rfl⟩
      · simp only [height_mk]; exact ⟨by omega, by omega, fun _ _ => trivial⟩

/-- On an AVL tree the end of the deletion routines changes nothing. -/
theorem del_fix_AVL {p : avlnode α} (hp : AVL p) : del_fix p = some p := by
  cases p with
  | null => rfl
  | mk l n h r =>
    have hp2 := (AVL_mk_iff l n h r).1 hp
    obtain ⟨q, hq, -, -, -, -, e⟩ := del_fix_spec l r n h hp2.1 hp2.2.1 (by omega) (by omega)
    rw [hq, e hp2.2.2.1 hp2.2.2.2.1, hp2.2.2.2.2]

/-- Lines 56-62 and 73 of `avltree_node_add` after an insertion on the left: on AVL
subtrees, the left one at most 2 higher and then of the shape `Grown`, the node is
rebalanced; it is left alone (but for the height update) when no rotation is due. -/
theorem add_fix_left_spec (cmp : α → α → Int) (node : α) (l r : avlnode α) (n : α) (h : Int)
    (hl : AVL l) (hr : AVL r) (h1 : height r ≤ height l + 1)
    (h2 : height l ≤ height r + 1 ∨ (height l = height r + 2 ∧ Grown cmp node l)) :
    ∃ p1 p2, add_fix_left cmp (.mk l n h r) node = some p1 ∧ store_height p1 = some p2 ∧
      AVL p2 ∧ inorder p2 = inorder l ++ n :: inorder r ∧
      (height l ≤ height r + 1 → p2 = .mk l n (max (height l) (height r) + 1) r) ∧
      (height l = height r + 2 → height p2 = height l) := by
  simp only [add_fix_left, avltree_node_balance, hl.cached, hr.cached]
  by_cases c1 : height l - height r > 1
  · rw [if_pos c1]
    rcases h2 with h2 | ⟨h2, g⟩
    · omega
    cases l with
    | null => exact absurd g (by simp [Grown])
    | mk ll ln lh lr =>
      rw [AVL_mk_iff] at hl
      obtain ⟨hll, hlr, b1, b2, e⟩ := hl
      simp only [Grown] at g
      obtain ⟨g0, g1, g2⟩ := g
      simp only [height_mk] at c1 h1 h2 ⊢
      simp only [cmpnode_at]
      by_cases c2 : cmp ln node > 0
      · rw [if_pos c2]
        have g3 := g1 c2
        refine ⟨_, _, rfl, rfl, ?_, by simp, ?_⟩
        · simp only [AVL_mk_iff, imax_eq, node_height_mk, hll.cached, hlr.cached, hr.cached,
            height_mk, hll, hlr, hr, true_and, and_true]
          omega
        · simp only [height_mk, imax_eq, node_height_mk, hll.cached, hlr.cached, hr.cached]
          omega
      · rw [if_neg c2]
        have g3 := g2 (by omega)
        cases lr with
        | null => simp at g3; have := height_ge ll; omega
        | mk a z zh b =>
          rw [AVL_mk_iff] at hlr
          obtain ⟨ha, hb, b3, b4, e2⟩ := hlr
          simp only [height_mk] at c1 h1 h2 b1 b2 g3 ⊢
          refine ⟨_, _, rfl, rfl, ?_, by simp, ?_⟩
          · simp only [AVL_mk_iff, imax_eq, node_height_mk, hll.cached, ha.cached, hb.cached,
              hr.cached, height_mk, hll, ha, hb, hr, true_and, and_true]
            omega
          · simp only [height_mk]; omega
  · rw [if_neg c1]
    refine ⟨_, _, rfl, rfl, ?_, by simp, ?_⟩
    · simp only [AVL_mk_iff, imax_eq, hl.cached, hr.cached, hl, hr, true_and, and_true]
      omega
    · simp only [imax_eq, hl.cached, hr.cached]
      exact ⟨fun _ => trivial, fun _ => by omega⟩

/-- Lines 65-71 and 73 of `avltree_node_add` after an insertion on the right: the mirror
image of `add_fix_left_spec`. -/
theorem add_fix_right_spec (cmp : α → α → Int) (node : α) (l r : avlnode α) (n : α) (h : Int)
    (hl : AVL l) (hr : AVL r) (h1 : height l ≤ height r + 1)
    (h2 : height r ≤ height l + 1 ∨ (height r = height l + 2 ∧ Grown cmp node r)) :
    ∃ p1 p2, add_fix_right cmp (.mk l n h r) node = some p1 ∧ store_height p1 = some p2 ∧
      AVL p2 ∧ inorder p2 = inorder l ++ n :: inorder r ∧
      (height r ≤ height l + 1 → p2 = .mk l n (max (height l) (height r) + 1) r) ∧
      (height r = height l + 2 → height p2 = height r) := by
  simp only [add_fix_right, avltree_node_balance, hl.cached, hr.cached]
  by_cases c1 : height l - height r < -1
  · rw [if_pos c1]
    rcases h2 with h2 | ⟨h2, g⟩
    · omega
    cases r with
    | null => exact absurd g (by simp [Grown])
    | mk rl rn rh rr =>
      rw [AVL_mk_iff] at hr
      obtain ⟨hrl, hrr, b1, b2, e⟩ := hr
      simp only [Grown] at g
      obtain ⟨g0, g1, g2⟩ := g
      simp only [height_mk] at c1 h1 h2 ⊢
      simp only [cmpnode_at]
      by_cases c2 : cmp rn node < 0
      · rw [if_pos c2]
        have g3 := g2 c2
        refine ⟨_, _, rfl, rfl, ?_, by simp, ?_⟩
        · simp only [AVL_mk_iff, imax_eq, node_height_mk, hrl.cached, hrr.cached, hl.cached,
            height_mk, hrl, hrr, hl, true_and, and_true]
          omega
        · simp only [height_mk, imax_eq, node_height_mk, hrl.cached, hrr.cached, hl.cached]
          omega
      · rw [if_neg c2]
        have g3 := g1 (by omega)
        cases rl with
        | null => simp at g3; have := height_ge rr; omega
        | mk a z zh b =>
          rw [AVL_mk_iff] at hrl
          obtain ⟨ha, hb, b3, b4, e2⟩ := hrl
          simp only [height_mk] at c1 h1 h2 b1 b2 g3 ⊢
          refine ⟨_, _, rfl, rfl, ?_, by simp, ?_⟩
          · simp only [AVL_mk_iff, imax_eq, node_height_mk, hrr.cached, ha.cached, hb.cached,
              hl.cached, height_mk, hrr, ha, hb, hl, true_and, and_true]
            omega
          · simp only [height_mk]; omega
  · rw [if_neg c1]
    refine ⟨_, _, rfl, rfl, ?_, by simp, ?_⟩
    · simp only [AVL_mk_iff, imax_eq, hl.cached, hr.cached, hl, hr, true_and, and_true]
      omega
    · simp only [imax_eq, hl.cached, hr.cached]
      exact ⟨fun _ => trivial, fun _ => by omega⟩

/-! ## Insertion -/

/-- What `avltree_node_add` does on an ordered AVL subtree `p`: it returns an AVL subtree;
either a node comparing equal to `node` is in `p` and nothing at all is written, or there is
none, `node` is linked at its sorted position, `ref` and `count` are updated, and the height
grows by at most one (and then the result has the shape `Grown`). -/
theorem avltree_node_add_spec (cmp : α → α → Int) (hc : StrictTotalOrder cmp)
    (tree : avltree α) (mem : avlfields α) (node : α) :
    ∀ p, AVL p → Ordered cmp p →
      ∃ p' tree' mem', avltree_node_add cmp tree mem p node = some (p', tree', mem') ∧ AVL p' ∧
        (((∃ e ∈ inorder p, cmp e node = 0) ∧ p' = p ∧ tree' = tree ∧ mem' = mem) ∨
         ((∀ e ∈ inorder p, cmp e node ≠ 0) ∧
          tree' = { tree with ref := some node, count := (tree.count + 1) % SIZE_MOD } ∧
          mem' = { l := none, r := none, height := 0 } ∧
          (∃ xs ys, inorder p = xs ++ ys ∧ inorder p' = xs ++ node :: ys ∧
            (∀ a ∈ xs, cmp a node < 0) ∧ (∀ b ∈ ys, 0 < cmp b node)) ∧
          (height p' = height p ∨
            (height p' = height p + 1 ∧ (p = .null ∨ Grown cmp node p'))))) := by
  intro p
  induction p with
  | null =>
    intro _ _
    refine ⟨_, _, _, rfl, by simp [AVL_mk_iff, AVL_null], Or.inr ⟨by simp, rfl, rfl,
      ⟨[], [], rfl, rfl, by simp, by simp⟩, Or.inr ⟨by simp, Or.inl rfl⟩⟩⟩
  | mk l n h r ihl ihr =>
    intro hp ho
    rw [AVL_mk_iff] at hp
    obtain ⟨hl, hr, b1, b2, e⟩ := hp
    rw [Ordered_mk_iff] at ho
    obtain ⟨ol, or_, o1, o2, -⟩ := ho
    simp only [avltree_node_add]
    by_cases c1 : cmp n node > 0
    · rw [if_pos c1]
      obtain ⟨l', tree', mem', eq, hl', post⟩ := ihl hl ol
      rw [eq]
      simp only []
      have hr_gt : ∀ b ∈ inorder r, 0 < cmp b node := fun b hb =>
        (hc.swap _ _).1 (hc.trans _ _ _ ((hc.swap _ _).2 c1) (o2 b hb))
      rcases post with ⟨⟨e0, he0, hz⟩, rfl, rfl, rfl⟩ | ⟨hno, rfl, rfl, ⟨xs, ys, ex, ey, bx, bys⟩, hh⟩
      · obtain ⟨p1, p2, f1, f2, a2, -, same, -⟩ :=
          add_fix_left_spec cmp node l' r n h hl' hr (by omega) (Or.inl (by omega))
        rw [f1]
        simp only []
        rw [f2]
        simp only [Option.map_some']
        refine ⟨_, _, _, rfl, a2, Or.inl ⟨⟨e0, by simp [he0], hz⟩, ?_, rfl, rfl⟩⟩
        rw [same (by omega), e]
      · have hgrow : height l' ≤ height r + 1 ∨
            (height l' = height r + 2 ∧ Grown cmp node l') := by
          rcases hh with hh | ⟨hh, hn | g⟩
          · left; omega
          · left; subst hn; simp only [height_null] at hh; have := height_ge r; omega
          · by_cases c : height l' ≤ height r + 1
            · exact Or.inl c
            · exact Or.inr ⟨by omega, g⟩
        have hh2 : height l' = height l ∨ height l' = height l + 1 := by
          rcases hh with hh | ⟨hh, -⟩
          · exact Or.inl hh
          · exact Or.inr hh
        obtain ⟨p1, p2, f1, f2, a2, i2, same, grow⟩ :=
          add_fix_left_spec cmp node l' r n h hl' hr (by omega) hgrow
        rw [f1]
        simp only []
        rw [f2]
        simp only [Option.map_some']
        refine ⟨_, _, _, rfl, a2, Or.inr ⟨?_, rfl, rfl,
          ⟨xs, ys ++ n :: inorder r, ?_, ?_, bx, ?_⟩, ?_⟩⟩
        · intro x hx
          simp only [inorder_mk, List.mem_append, List.mem_cons] at hx
          rcases hx with hx | rfl | hx
          · exact hno x hx
          · omega
          · have := hr_gt x hx; omega
        · simp [ex]
        · simp [i2, ey]
        · intro b hb
          simp only [List.mem_append, List.mem_cons] at hb
          rcases hb with hb | rfl | hb
          · exact bys b hb
          · exact c1
          · exact hr_gt b hb
        · by_cases c : height l' ≤ height r + 1
          · rw [same c]
            simp only [height_mk, Grown]
            by_cases c3 : height l' = height l
            · left; omega
            · by_cases c4 : height r ≤ height l
              · right
                exact ⟨by omega, Or.inr ⟨by omega, fun _ => by omega, fun _ => by omega⟩⟩
              · left; omega
          · left
            rw [grow (by omega), height_mk]
            omega
    · rw [if_neg c1]
      by_cases c2 : cmp n node < 0
      · rw [if_pos c2]
        obtain ⟨r', tree', mem', eq, hr', post⟩ := ihr hr or_
        rw [eq]
        simp only []
        have hl_lt : ∀ a ∈ inorder l, cmp a node < 0 := fun a ha =>
          hc.trans _ _ _ (o1 a ha) c2
        rcases post with ⟨⟨e0, he0, hz⟩, rfl, rfl, rfl⟩ |
          ⟨hno, rfl, rfl, ⟨xs, ys, ex, ey, bx, bys⟩, hh⟩
        · obtain ⟨p1, p2, f1, f2, a2, -, same, -⟩ :=
            add_fix_right_spec cmp node l r' n h hl hr' (by omega) (Or.inl (by omega))
          rw [f1]
          simp only []
          rw [f2]
          simp only [Option.map_some']
          refine ⟨_, _, _, rfl, a2, Or.inl ⟨⟨e0, by simp [he0], hz⟩, ?_, rfl, rfl⟩⟩
          rw [same (by omega), e]
        · have hgrow : height r' ≤ height l + 1 ∨
              (height r' = height l + 2 ∧ Grown cmp node r') := by
            rcases hh with hh | ⟨hh, hn | g⟩
            · left; omega
            · left; subst hn; simp only [height_null] at hh; have := height_ge l; omega
            · by_cases c : height r' ≤ height l + 1
              · exact Or.inl c
              · exact Or.inr ⟨by omega, g⟩
          have hh2 : height r' = height r ∨ height r' = height r + 1 := by
            rcases hh with hh | ⟨hh, -⟩
            · exact Or.inl hh
            · exact Or.inr hh
          obtain ⟨p1, p2, f1, f2, a2, i2, same, grow⟩ :=
            add_fix_right_spec cmp node l r' n h hl hr' (by omega) hgrow
          rw [f1]
          simp only []
          rw [f2]
          simp only [Option.map_some']
          refine ⟨_, _, _, rfl, a2, Or.inr ⟨?_, rfl, rfl,
            ⟨inorder l ++ n :: xs, ys, ?_, ?_, ?_, bys⟩, ?_⟩⟩
          · intro x hx
            simp only [inorder_mk, List.mem_append, List.mem_cons] at hx
            rcases hx with hx | rfl | hx
            · have := hl_lt x hx; omega
            · omega
            · exact hno x hx
          · simp [ex]
          · simp [i2, ey]
          · intro a ha
            simp only [List.mem_append, List.mem_cons] at ha
            rcases ha with ha | rfl | ha
            · exact hl_lt a ha
            · exact c2
            · exact bx a ha
          · by_cases c : height r' ≤ height l + 1
            · rw [same c]
              simp only [height_mk, Grown]
              by_cases c3 : height r' = height r
              · left; omega
              · by_cases c4 : height l ≤ height r
                · right
                  exact ⟨by omega, Or.inr ⟨by omega, fun _ => by omega, fun _ => by omega⟩⟩
                · left; omega
            · left
              rw [grow (by omega), height_mk]
              omega
      · rw [if_neg c2]
        have c3 : cmp n node = 0 := by omega
        refine ⟨_, _, _, rfl, ?_, Or.inl ⟨⟨n, by simp, c3⟩, ?_, rfl, rfl⟩⟩
        · simp only [AVL_mk_iff, imax_eq, hl.cached, hr.cached, hl, hr, true_and, and_true]
          omega
        · simp only [imax_eq, hl.cached, hr.cached, e]

/-! ## Deletion -/

theorem StrictTotalOrder.lt_eq {cmp : α → α → Int} (hc : StrictTotalOrder cmp) {a b c : α}
    (h : cmp a b < 0) (h2 : cmp b c = 0) : cmp a c < 0 :=
  hc.eq_gt (hc.eq_symm h2) h

theorem smallest_spec : ∀ (r : avlnode α), r ≠ .null →
    ∃ m mh tl, smallest r = some (m, mh) ∧ inorder r = m :: tl := by
  intro r
  induction r with
  | null => intro h; exact absurd rfl h
  | mk l n h r ihl _ =>
    intro _
    cases l with
    | null => exact ⟨n, h, inorder r, rfl, by simp⟩
    | mk ll ln lh lr =>
      obtain ⟨m, mh, tl, e1, e2⟩ := ihl (by simp)
      exact ⟨m, mh, tl ++ n :: inorder r, by rw [smallest, e1], by rw [inorder_mk, e2]; simp⟩

theorem avltree_node_del_node_mk (cmp : α → α → Int) (tree : avltree α) (l : avlnode α) (n : α)
    (h : Int) (r : avlnode α) (node : α) :
    avltree_node_del_node cmp tree (.mk l n h r) node =
      if cmp n node > 0 then
        match avltree_node_del_node cmp tree l node with
        | none => none
        | some (l', tree') => (del_fix (.mk l' n h r)).map fun p => (p, tree')
      else if cmp n node < 0 then
        match avltree_node_del_node cmp tree r node with
        | none => none
        | some (r', tree') => (del_fix (.mk l n h r')).map fun p => (p, tree')
      else del_found cmp tree l n r := by
  rw [avltree_node_del_node]
  rfl

theorem avltree_node_del_key_mk (cmp : α → α → Int) (cmpkey : α → κ → Int) (tree : avltree α)
    (l : avlnode α) (n : α) (h : Int) (r : avlnode α) (key : κ) :
    avltree_node_del_key cmp cmpkey tree (.mk l n h r) key =
      if cmpkey n key > 0 then
        match avltree_node_del_key cmp cmpkey tree l key with
        | none => none
        | some (l', tree') => (del_fix (.mk l' n h r)).map fun p => (p, tree')
      else if cmpkey n key < 0 then
        match avltree_node_del_key cmp cmpkey tree r key with
        | none => none
        | some (r', tree') => (del_fix (.mk l n h r')).map fun p => (p, tree')
      else del_found cmp tree l n r := by
  rw [avltree_node_del_key]
  rfl

/-- The unlinking step of both deletion routines, on AVL children of a node of an AVL tree,
given what `avltree_node_del_node` does on the right child: the successor is moved up, the
result is AVL, at most one lower than the node was, and holds the nodes of both children
in order; only `ref` is written. -/
theorem del_found_spec (cmp : α → α → Int) (hc : StrictTotalOrder cmp) (tree : avltree α)
    (l r : avlnode α) (n : α) (hl : AVL l) (hr : AVL r)
    (b1 : height l ≤ height r + 1) (b2 : height r ≤ height l + 1) (or_ : Ordered cmp r)
    (hrec : ∀ tree node, ∃ res, avltree_node_del_node cmp tree r node = some res ∧
        DelPost (fun e => cmp e node = 0) (fun e => cmp e node ≠ 0) tree r res) :
    ∃ res, del_found cmp tree l n r = some res ∧ AVL res.1 ∧
      (height res.1 = max (height l) (height r) + 1 ∨
        height res.1 = max (height l) (height r)) ∧
      res.2 = { tree with ref := some n } ∧ inorder res.1 = inorder l ++ inorder r := by
  cases r with
  | null =>
    have e : del_found cmp tree l n .null = (del_fix l).map fun p =>
        (p, { tree with ref := some n }) := by
      cases l <;> rfl
    rw [e, del_fix_AVL hl]
    refine ⟨_, rfl, hl, Or.inr ?_, rfl, by simp⟩
    have := height_ge l
    simp only [height_null]
    omega
  | mk rl rn rh rr =>
    cases l with
    | null =>
      have e : del_found cmp tree .null n (.mk rl rn rh rr) =
          (del_fix (.mk rl rn rh rr)).map fun p => (p, { tree with ref := some n }) := rfl
      rw [e, del_fix_AVL hr]
      refine ⟨_, rfl, hr, Or.inr ?_, rfl, by simp⟩
      have := height_ge (.mk rl rn rh rr)
      simp only [height_null]
      omega
    | mk ll ln lh lr =>
      obtain ⟨m, mh, tl, e1, e2⟩ := smallest_spec (.mk rl rn rh rr) (by simp)
      obtain ⟨⟨r', tree2⟩, e3, a', hh, rt, ct, post⟩ := hrec { tree with ref := some n } m
      have e : del_found cmp tree (.mk ll ln lh lr) n (.mk rl rn rh rr) =
          match smallest (.mk rl rn rh rr) with
          | none => none
          | some (m, mh) =>
            match avltree_node_del_node cmp { tree with ref := some n } (.mk rl rn rh rr) m with
            | none => none
            | some (r', tree2) =>
              (del_fix (.mk (.mk ll ln lh lr) m mh r')).map fun p =>
                (p, { tree2 with ref := some n }) := rfl
      rw [e, e1]
      simp only []
      rw [e3]
      simp only []
      have key : inorder r' = tl := by
        rcases post with ⟨no, -, -⟩ | ⟨x, xs, ys, hx, i1, i2, -⟩
        · exact absurd (hc.irrefl m) (no m (by rw [e2]; simp))
        · rw [e2] at i1
          cases xs with
          | nil =>
            simp only [List.nil_append, List.cons.injEq] at i1
            rw [i2, i1.2]; rfl
          | cons y ys' =>
            simp only [List.cons_append, List.cons.injEq] at i1
            have o : (m :: tl).Pairwise (fun a b => cmp a b < 0) := by
              have := or_; rw [Ordered, e2] at this; exact this
            have hm : cmp m x < 0 := by
              rw [List.pairwise_cons] at o
              exact o.1 x (by rw [i1.2]; simp)
            have := hc.eq_symm hx
            omega
      simp only [] at hh a'
      obtain ⟨p, f, ap, ip, lo, hi, same⟩ :=
        del_fix_spec (.mk ll ln lh lr) r' m mh hl a' (by omega) (by omega)
      rw [f]
      refine ⟨_, rfl, ap, ?_, ?_, ?_⟩
      · simp only []
        by_cases c : height (.mk ll ln lh lr) ≤ height r' + 1
        · rw [same c (by omega), height_mk]
          omega
        · omega
      · simp only [] at rt ct
        simp [rt, ct]
      · simp only []
        rw [ip, key, e2]

/-- One level of a deletion routine that went into the left child: from what the routine
did on the left child to what it does on the node. -/
theorem del_step_left (hit miss : α → Prop) (tree : avltree α) (l r : avlnode α) (n : α) (h : Int)
    (hl : AVL l) (hr : AVL r) (b1 : height l ≤ height r + 1) (b2 : height r ≤ height l + 1)
    (e : h = max (height l) (height r) + 1) (hn : miss n) (hrn : ∀ b ∈ inorder r, miss b)
    (res : avlnode α × avltree α) (post : DelPost hit miss tree l res) :
    ∃ p, del_fix (.mk res.1 n h r) = some p ∧ DelPost hit miss tree (.mk l n h r) (p, res.2) := by
  obtain ⟨l', tree'⟩ := res
  obtain ⟨al', hh, rt, ct, post⟩ := post
  simp only [] at al' hh rt ct post ⊢
  obtain ⟨p, f, ap, ip, lo, hi, same⟩ := del_fix_spec l' r n h al' hr (by omega) (by omega)
  refine ⟨p, f, ap, ?_, rt, ct, ?_⟩
  · simp only [height_mk]
    by_cases c : height r ≤ height l' + 1
    · rw [same (by omega) c, height_mk]
      omega
    · omega
  · rcases post with ⟨no, rfl, rf⟩ | ⟨x, xs, ys, hx, i1, i2, rf⟩
    · left
      refine ⟨?_, ?_, rf⟩
      · intro x hx
        simp only [inorder_mk, List.mem_append, List.mem_cons] at hx
        rcases hx with hx | rfl | hx
        · exact no x hx
        · exact hn
        · exact hrn x hx
      · simp only []
        rw [same b1 b2, e]
    · right
      exact ⟨x, xs, ys ++ n :: inorder r, hx, by simp [i1], by simp [ip, i2], rf⟩

/-- One level of a deletion routine that went into the right child. -/
theorem del_step_right (hit miss : α → Prop) (tree : avltree α) (l r : avlnode α) (n : α) (h : Int)
    (hl : AVL l) (hr : AVL r) (b1 : height l ≤ height r + 1) (b2 : height r ≤ height l + 1)
    (e : h = max (height l) (height r) + 1) (hn : miss n) (hln : ∀ a ∈ inorder l, miss a)
    (res : avlnode α × avltree α) (post : DelPost hit miss tree r res) :
    ∃ p, del_fix (.mk l n h res.1) = some p ∧ DelPost hit miss tree (.mk l n h r) (p, res.2) := by
  obtain ⟨r', tree'⟩ := res
  obtain ⟨ar', hh, rt, ct, post⟩ := post
  simp only [] at ar' hh rt ct post ⊢
  obtain ⟨p, f, ap, ip, lo, hi, same⟩ := del_fix_spec l r' n h hl ar' (by omega) (by omega)
  refine ⟨p, f, ap, ?_, rt, ct, ?_⟩
  · simp only [height_mk]
    by_cases c : height l ≤ height r' + 1
    · rw [same c (by omega), height_mk]
      omega
    · omega
  · rcases post with ⟨no, rfl, rf⟩ | ⟨x, xs, ys, hx, i1, i2, rf⟩
    · left
      refine ⟨?_, ?_, rf⟩
      · intro x hx
        simp only [inorder_mk, List.mem_append, List.mem_cons] at hx
        rcases hx with hx | rfl | hx
        · exact hln x hx
        · exact hn
        · exact no x hx
      · simp only []
        rw [same b1 b2, e]
    · right
      exact ⟨x, inorder l ++ n :: xs, ys, hx, by simp [i1], by simp [ip, i2], rf⟩

/-- The unlinking step establishes the guarantee of the deletion routines at a node that
matches. -/
theorem del_found_post (cmp : α → α → Int) (hc : StrictTotalOrder cmp) (hit miss : α → Prop)
    (tree : avltree α) (l r : avlnode α) (n : α) (h : Int) (hl : AVL l) (hr : AVL r)
    (b1 : height l ≤ height r + 1) (b2 : height r ≤ height l + 1) (or_ : Ordered cmp r)
    (hn : hit n)
    (hrec : ∀ tree node, ∃ res, avltree_node_del_node cmp tree r node = some res ∧
        DelPost (fun e => cmp e node = 0) (fun e => cmp e node ≠ 0) tree r res) :
    ∃ res, del_found cmp tree l n r = some res ∧ DelPost hit miss tree (.mk l n h r) res := by
  obtain ⟨⟨p, tree'⟩, f, ap, hh, rt, ip⟩ :=
    del_found_spec cmp hc tree l r n hl hr b1 b2 or_ hrec
  simp only [] at ap hh rt ip
  refine ⟨_, f, ap, ?_, by rw [rt], by rw [rt], Or.inr ⟨n, inorder l, inorder r, hn, by simp,
    ip, by rw [rt]⟩⟩
  simp only [height_mk]
  omega

/-- What `avltree_node_del_node` does on an ordered AVL subtree. -/
theorem avltree_node_del_node_spec (cmp : α → α → Int) (hc : StrictTotalOrder cmp) :
    ∀ (p : avlnode α) (tree : avltree α) (node : α), AVL p → Ordered cmp p →
      ∃ res, avltree_node_del_node cmp tree p node = some res ∧
        DelPost (fun e => cmp e node = 0) (fun e => cmp e node ≠ 0) tree p res := by
  intro p
  induction p with
  | null =>
    intro tree node _ _
    exact ⟨_, rfl, AVL_null, Or.inl rfl, rfl, rfl, Or.inl ⟨by simp, rfl, rfl⟩⟩
  | mk l n h r ihl ihr =>
    intro tree node hp ho
    rw [AVL_mk_iff] at hp
    obtain ⟨hl, hr, b1, b2, e⟩ := hp
    rw [Ordered_mk_iff] at ho
    obtain ⟨ol, or_, o1, o2, -⟩ := ho
    rw [avltree_node_del_node_mk]
    by_cases c1 : cmp n node > 0
    · rw [if_pos c1]
      obtain ⟨res, eq, post⟩ := ihl tree node hl ol
      obtain ⟨p, f, post2⟩ := del_step_left _ _ tree l r n h hl hr b1 b2 e (by show _ ≠ _; omega)
        (fun b hb hz => by have := hc.lt_eq (o2 b hb) hz; omega) res post
      rw [eq]
      simp only []
      rw [f]
      exact ⟨_, rfl, post2⟩
    · rw [if_neg c1]
      by_cases c2 : cmp n node < 0
      · rw [if_pos c2]
        obtain ⟨res, eq, post⟩ := ihr tree node hr or_
        obtain ⟨p, f, post2⟩ := del_step_right _ _ tree l r n h hl hr b1 b2 e
          (by show _ ≠ _; omega)
          (fun a ha hz => by
            have := hc.eq_lt _ _ _ (hc.eq_symm hz) (o1 a ha)
            have := (hc.swap node n).1 this
            omega) res post
        rw [eq]
        simp only []
        rw [f]
        exact ⟨_, rfl, post2⟩
      · rw [if_neg c2]
        exact del_found_post cmp hc _ _ tree l r n h hl hr b1 b2 or_ (by show _ = _; omega)
          (fun tree node => ihr tree node hr or_)

theorem KeyOrdered_mk_iff (cmpkey : α → κ → Int) (key : κ) (l : avlnode α) (n : α) (h : Int)
    (r : avlnode α) :
    KeyOrdered cmpkey key (.mk l n h r) ↔
      KeyOrdered cmpkey key l ∧ KeyOrdered cmpkey key r ∧
      (∀ a ∈ inorder l, cmpkey n key < 0 → cmpkey a key < 0) ∧
      (∀ b ∈ inorder r, 0 < cmpkey n key → 0 < cmpkey b key) ∧
      (∀ a ∈ inorder l, 0 < cmpkey a key → 0 < cmpkey n key) ∧
      (∀ b ∈ inorder r, cmpkey b key < 0 → cmpkey n key < 0) := by
  simp only [KeyOrdered, inorder_mk, List.pairwise_append, List.pairwise_cons, List.mem_cons,
    forall_eq_or_imp]
  constructor
  · rintro ⟨a, ⟨b, c⟩, d⟩
    exact ⟨a, c, fun x hx => (d x hx).1.1, fun x hx => (b x hx).2, fun x hx => (d x hx).1.2,
      fun x hx => (b x hx).1⟩
  · rintro ⟨a, b, c, d, e, f⟩
    refine ⟨a, ⟨fun x hx => ⟨f x hx, d x hx⟩, b⟩, fun x hx => ⟨⟨c x hx, e x hx⟩, ?_⟩⟩
    intro y hy
    have h1 := c x hx
    have h2 := e x hx
    have h3 := d y hy
    have h4 := f y hy
    constructor <;> intro h5 <;> omega

/-- What `avltree_node_del_key` does on an AVL subtree that is ordered by the node
comparator; when it is moreover ordered consistently with the key comparator (`K`), a
search that ends without a match has excluded every node. -/
theorem avltree_node_del_key_spec (cmp : α → α → Int) (hc : StrictTotalOrder cmp)
    (cmpkey : α → κ → Int) (key : κ) (K : Prop) :
    ∀ (p : avlnode α) (tree : avltree α), AVL p → Ordered cmp p →
      (K → KeyOrdered cmpkey key p) →
      ∃ res, avltree_node_del_key cmp cmpkey tree p key = some res ∧
        DelPost (fun e => cmpkey e key = 0) (fun e => K → cmpkey e key ≠ 0) tree p res := by
  intro p
  induction p with
  | null =>
    intro tree _ _ _
    exact ⟨_, rfl, AVL_null, Or.inl rfl, rfl, rfl, Or.inl ⟨by simp, rfl, rfl⟩⟩
  | mk l n h r ihl ihr =>
    intro tree hp ho hk
    rw [AVL_mk_iff] at hp
    obtain ⟨hl, hr, b1, b2, e⟩ := hp
    rw [Ordered_mk_iff] at ho
    obtain ⟨ol, or_, -, -, -⟩ := ho
    have kl : K → KeyOrdered cmpkey key l := fun k => ((KeyOrdered_mk_iff _ _ _ _ _ _).1 (hk k)).1
    have kr : K → KeyOrdered cmpkey key r := fun k =>
      ((KeyOrdered_mk_iff _ _ _ _ _ _).1 (hk k)).2.1
    have k1 := fun k => ((KeyOrdered_mk_iff _ _ _ _ _ _).1 (hk k)).2.2.1
    have k2 := fun k => ((KeyOrdered_mk_iff _ _ _ _ _ _).1 (hk k)).2.2.2.1
    rw [avltree_node_del_key_mk]
    by_cases c1 : cmpkey n key > 0
    · rw [if_pos c1]
      obtain ⟨res, eq, post⟩ := ihl tree hl ol kl
      obtain ⟨p, f, post2⟩ := del_step_left _ _ tree l r n h hl hr b1 b2 e
        (fun _ => by omega)
        (fun b hb k => by have := k2 k b hb c1; omega) res post
      rw [eq]
      simp only []
      rw [f]
      exact ⟨_, rfl, post2⟩
    · rw [if_neg c1]
      by_cases c2 : cmpkey n key < 0
      · rw [if_pos c2]
        obtain ⟨res, eq, post⟩ := ihr tree hr or_ kr
        obtain ⟨p, f, post2⟩ := del_step_right _ _ tree l r n h hl hr b1 b2 e
          (fun _ => by omega)
          (fun a ha k => by have := k1 k a ha c2; omega) res post
        rw [eq]
        simp only []
        rw [f]
        exact ⟨_, rfl, post2⟩
      · rw [if_neg c2]
        exact del_found_post cmp hc _ _ tree l r n h hl hr b1 b2 or_ (by show _ = _; omega)
          (fun tree node => avltree_node_del_node_spec cmp hc r tree node hr or_)

/-! ## Lookup -/

/-- The node `avltree_find` returns is a node of the tree that matches the key. -/
theorem avltree_find_from_some (cmpkey : α → κ → Int) (key : κ) :
    ∀ (p : avlnode α) (n : α), avltree_find_from cmpkey p key = some n →
      n ∈ inorder p ∧ cmpkey n key = 0 := by
  intro p
  induction p with
  | null => intro n h; cases h
  | mk l x h r ihl ihr =>
    intro n hf
    simp only [avltree_find_from] at hf
    by_cases c0 : cmpkey x key = 0
    · rw [if_pos c0] at hf
      cases hf
      exact ⟨by simp, c0⟩
    · rw [if_neg c0] at hf
      by_cases c1 : cmpkey x key < 0
      · rw [if_pos c1] at hf
        have := ihr n hf
        exact ⟨by simp [this.1], this.2⟩
      · rw [if_neg c1] at hf
        have := ihl n hf
        exact ⟨by simp [this.1], this.2⟩

/-- On a tree ordered consistently with the key comparator, `avltree_find` returns none
only when no node matches the key. -/
theorem avltree_find_from_none (cmpkey : α → κ → Int) (key : κ) :
    ∀ (p : avlnode α), KeyOrdered cmpkey key p → avltree_find_from cmpkey p key = none →
      ∀ e ∈ inorder p, cmpkey e key ≠ 0 := by
  intro p
  induction p with
  | null => intro _ _ e he; simp at he
  | mk l x h r ihl ihr =>
    intro hk hf e he
    rw [KeyOrdered_mk_iff] at hk
    obtain ⟨kl, kr, k1, k2, k3, k4⟩ := hk
    simp only [avltree_find_from] at hf
    by_cases c0 : cmpkey x key = 0
    · rw [if_pos c0] at hf
      cases hf
    · rw [if_neg c0] at hf
      simp only [inorder_mk, List.mem_append, List.mem_cons] at he
      by_cases c1 : cmpkey x key < 0
      · rw [if_pos c1] at hf
        rcases he with he | rfl | he
        · have := k1 e he c1; omega
        · exact c0
        · exact ihr kr hf e he
      · rw [if_neg c1] at hf
        rcases he with he | rfl | he
        · exact ihl kl hf e he
        · exact c0
        · have := k2 e he (by omega); omega

/-! ## Facts on ordered sequences -/

/-- Two nodes of a strictly ascending sequence that compare equal are the same node. -/
theorem eq_of_cmp_eq_zero {cmp : α → α → Int} (hc : StrictTotalOrder cmp) :
    ∀ (xs : List α), xs.Pairwise (fun a b => cmp a b < 0) → ∀ a ∈ xs, ∀ b ∈ xs,
      cmp a b = 0 → a = b := by
  intro xs
  induction xs with
  | nil => intro _ a ha; simp at ha
  | cons x xs ih =>
    intro hp a ha b hb hz
    rw [List.pairwise_cons] at hp
    simp only [List.mem_cons] at ha hb
    rcases ha with rfl | ha <;> rcases hb with rfl | hb
    · rfl
    · have := hp.1 b hb; omega
    · have := hp.1 a ha; have := hc.eq_symm hz; omega
    · exact ih hp.2 a ha b hb hz

/-- Linking a node between the nodes below it and the nodes above it keeps a strictly
ascending sequence strictly ascending. -/
theorem pairwise_insert {cmp : α → α → Int} (hc : StrictTotalOrder cmp) (xs ys : List α)
    (node : α) (h : (xs ++ ys).Pairwise (fun a b => cmp a b < 0))
    (hx : ∀ a ∈ xs, cmp a node < 0) (hy : ∀ b ∈ ys, 0 < cmp b node) :
    (xs ++ node :: ys).Pairwise (fun a b => cmp a b < 0) := by
  rw [List.pairwise_append] at h ⊢
  refine ⟨h.1, List.pairwise_cons.2 ⟨fun b hb => (hc.swap _ _).2 (hy b hb), h.2.1⟩, ?_⟩
  intro a ha b hb
  simp only [List.mem_cons] at hb
  rcases hb with rfl | hb
  · exact hx a ha
  · exact h.2.2 a ha b hb

/-- A strictly ascending sequence is cut in only one way into the nodes below `node` and
the nodes above it. -/
theorem split_unique {cmp : α → α → Int} (node : α) :
    ∀ (xs ys xs' ys' : List α), xs ++ ys = xs' ++ ys' →
      (∀ a ∈ xs, cmp a node < 0) → (∀ b ∈ ys, 0 < cmp b node) →
      (∀ a ∈ xs', cmp a node < 0) → (∀ b ∈ ys', 0 < cmp b node) → xs = xs' ∧ ys = ys' := by
  intro xs
  induction xs with
  | nil =>
    intro ys xs' ys' e _ hy hx' _
    cases xs' with
    | nil => exact ⟨rfl, by simpa using e⟩
    | cons x xs' =>
      simp only [List.nil_append, List.cons_append] at e
      have h1 := hy x (by rw [e]; simp)
      have h2 := hx' x (by simp)
      omega
  | cons x xs ih =>
    intro ys xs' ys' e hx hy hx' hy'
    cases xs' with
    | nil =>
      simp only [List.nil_append, List.cons_append] at e
      have h1 := hy' x (by rw [← e]; simp)
      have h2 := hx x (by simp)
      omega
    | cons x' xs' =>
      simp only [List.cons_append, List.cons.injEq] at e
      obtain ⟨rfl, e⟩ := e
      have := ih ys xs' ys' e (fun a ha => hx a (by simp [ha])) hy
        (fun a ha => hx' a (by simp [ha])) hy'
      exact ⟨by rw [this.1], this.2⟩

/-! ## The public operations -/

/-- What `avltree_add` does on an ordered AVL tree: either a node comparing equal is in the
tree, the call returns `-1` and writes nothing but `ref`; or there is none, the call
returns `0`, the node is linked at its sorted position and `count` is incremented. -/
theorem avltree_add_spec (cmp : α → α → Int) (hc : StrictTotalOrder cmp) (tree : avltree α)
    (node : α) (mem : avlfields α) (ha : AVL tree.root) (ho : Ordered cmp tree.root) :
    ∃ rc tree' mem', avltree_add cmp tree node mem = some (rc, tree', mem') ∧ AVL tree'.root ∧
      (((∃ e ∈ inorder tree.root, cmp e node = 0) ∧ rc = -1 ∧
          tree' = { tree with ref := none } ∧ mem' = mem) ∨
       ((∀ e ∈ inorder tree.root, cmp e node ≠ 0) ∧ rc = 0 ∧
          tree'.count = (tree.count + 1) % SIZE_MOD ∧ tree'.ref = some node ∧
          mem' = { l := none, r := none, height := 0 } ∧
          ∃ xs ys, inorder tree.root = xs ++ ys ∧ inorder tree'.root = xs ++ node :: ys ∧
            (∀ a ∈ xs, cmp a node < 0) ∧ (∀ b ∈ ys, 0 < cmp b node))) := by
  obtain ⟨p', tree', mem', eq, ap, post⟩ :=
    avltree_node_add_spec cmp hc { tree with ref := none } mem node tree.root ha ho
  unfold avltree_add
  rw [eq]
  simp only []
  rcases post with ⟨he, rfl, rfl, rfl⟩ | ⟨hno, rfl, rfl, hs, -⟩
  · exact ⟨_, _, _, rfl, ap, Or.inl ⟨he, by simp, rfl, rfl⟩⟩
  · exact ⟨_, _, _, rfl, ap, Or.inr ⟨hno, by simp, rfl, rfl, rfl, hs⟩⟩

/-- The end of `avltree_node_del` and `avltree_del` (lines 144-146 and 194-196), after a
deletion routine that fulfils `DelPost`. -/
theorem del_top_spec (hit miss : α → Prop) (tree : avltree α) (res : avlnode α × avltree α)
    (post : DelPost hit miss { tree with ref := none } tree.root res) :
    ∃ tree' ret,
      (let tree2 : avltree α := { res.2 with root := res.1 }
       let tree3 : avltree α :=
         if tree2.ref.isSome then
           { tree2 with count := (tree2.count + SIZE_MOD - 1) % SIZE_MOD }
         else tree2
       (tree3, tree3.ref)) = (tree', ret) ∧ AVL tree'.root ∧
      (((∀ e ∈ inorder tree.root, miss e) ∧ ret = none ∧ tree' = { tree with ref := none }) ∨
       (∃ e xs ys, hit e ∧ ret = some e ∧ inorder tree.root = xs ++ e :: ys ∧
          inorder tree'.root = xs ++ ys ∧
          tree'.count = (tree.count + SIZE_MOD - 1) % SIZE_MOD ∧ tree'.ref = some e)) := by
  obtain ⟨p, t⟩ := res
  obtain ⟨ap, -, rt, ct, post⟩ := post
  simp only [] at ap rt ct post ⊢
  rcases post with ⟨no, rfl, rf⟩ | ⟨e, xs, ys, he, i1, i2, rf⟩
  · refine ⟨_, _, rfl, ?_, Or.inl ⟨no, ?_, ?_⟩⟩
    · rw [rf]; exact ap
    · rw [rf]; rfl
    · rw [rf]
      simp only [Option.isSome_none, Bool.false_eq_true, if_false]
      cases t
      simp only [] at ct rf
      simp [ct, rf]
  · refine ⟨_, _, rfl, ?_, Or.inr ⟨e, xs, ys, he, ?_, i1, ?_, ?_, ?_⟩⟩
    · rw [rf]; exact ap
    · rw [rf]; rfl
    · rw [rf]; exact i2
    · rw [rf]; simp [ct]
    · rw [rf]; rfl

/-- What `avltree_node_del` does on an ordered AVL tree. -/
theorem avltree_node_del_spec (cmp : α → α → Int) (hc : StrictTotalOrder cmp)
    (tree : avltree α) (node : α) (ha : AVL tree.root) (ho : Ordered cmp tree.root) :
    ∃ tree' ret, avltree_node_del cmp tree node = some (tree', ret) ∧ AVL tree'.root ∧
      (((∀ e ∈ inorder tree.root, cmp e node ≠ 0) ∧ ret = none ∧
          tree' = { tree with ref := none }) ∨
       (∃ e xs ys, cmp e node = 0 ∧ ret = some e ∧ inorder tree.root = xs ++ e :: ys ∧
          inorder tree'.root = xs ++ ys ∧
          tree'.count = (tree.count + SIZE_MOD - 1) % SIZE_MOD ∧ tree'.ref = some e)) := by
  obtain ⟨res, eq, post⟩ :=
    avltree_node_del_node_spec cmp hc tree.root { tree with ref := none } node ha ho
  obtain ⟨tree', ret, e2, h⟩ := del_top_spec _ _ tree res post
  refine ⟨tree', ret, ?_, h⟩
  unfold avltree_node_del
  rw [eq]
  simp only [] at e2 ⊢
  rw [e2]

/-- What `avltree_del` does on an AVL tree ordered by the node comparator; when the tree is
moreover ordered consistently with the key comparator (`K`), a call that returns none
tells that no node matches the key. -/
theorem avltree_del_spec (cmp : α → α → Int) (hc : StrictTotalOrder cmp) (cmpkey : α → κ → Int)
    (tree : avltree α) (key : κ) (K : Prop) (ha : AVL tree.root) (ho : Ordered cmp tree.root)
    (hk : K → KeyOrdered cmpkey key tree.root) :
    ∃ tree' ret, avltree_del cmp cmpkey tree key = some (tree', ret) ∧ AVL tree'.root ∧
      (((∀ e ∈ inorder tree.root, K → cmpkey e key ≠ 0) ∧ ret = none ∧
          tree' = { tree with ref := none }) ∨
       (∃ e xs ys, cmpkey e key = 0 ∧ ret = some e ∧ inorder tree.root = xs ++ e :: ys ∧
          inorder tree'.root = xs ++ ys ∧
          tree'.count = (tree.count + SIZE_MOD - 1) % SIZE_MOD ∧ tree'.ref = some e)) := by
  obtain ⟨res, eq, post⟩ :=
    avltree_node_del_key_spec cmp hc cmpkey key K tree.root { tree with ref := none } ha ho hk
  obtain ⟨tree', ret, e2, h⟩ := del_top_spec _ _ tree res post
  refine ⟨tree', ret, ?_, h⟩
  unfold avltree_del
  rw [eq]
  simp only [] at e2 ⊢
  rw [e2]

/-! ## The comparators of the test program -/

/-- The comparator `area_cmp_node` is a strict total order on the addresses. -/
theorem area_cmp_node_strict : StrictTotalOrder area_cmp_node where
  swap a b := by unfold area_cmp_node; split_ifs <;> omega
  trans a b c := by unfold area_cmp_node; split_ifs <;> omega
  eq_lt a b c := by unfold area_cmp_node; split_ifs <;> omega

/-! ## Claims on insertion -/

/-- C1: on a tree that is ordered by a strict total order node comparator and satisfies the
AVL invariant, `avltree_add` of any node returns, and the tree it leaves satisfies the AVL
invariant at every node, whether the node was inserted (`0`) or rejected (`-1`); the
assertions of `check_height` of the test program pass on it. -/
theorem avltree_add_keeps_AVL (cmpnode : α → α → Int) (tree : avltree α) (node : α)
    (mem : avlfields α) (hc : StrictTotalOrder cmpnode) (ho : Ordered cmpnode tree.root)
    (ha : AVL tree.root) :
    ∃ rc tree' mem', avltree_add cmpnode tree node mem = some (rc, tree', mem') ∧
      (rc = 0 ∨ rc = -1) ∧ AVL tree'.root ∧
      check_height tree'.root = some (avltree_node_height tree'.root) := by
  obtain ⟨rc, tree', mem', eq, ap, h⟩ := avltree_add_spec cmpnode hc tree node mem ha ho
  refine ⟨rc, tree', mem', eq, ?_, ap, (check_height_iff _ _).2 ⟨ap, ap.cached⟩⟩
  rcases h with ⟨-, h, -⟩ | ⟨-, h, -⟩
  · exact Or.inr h
  · exact Or.inl h

/-- Witness of C1: inserting the new address 17, and the address 5 that is present, into
the 16-node tree of the test program. -/
theorem avltree_add_keeps_AVL_witness :
    (StrictTotalOrder area_cmp_node ∧ Ordered area_cmp_node (test_tree 16).root ∧
      AVL (test_tree 16).root) ∧
    (∃ rc tree' mem', avltree_add area_cmp_node (test_tree 16) ⟨17, 1⟩ ⟨none, none, 0⟩ =
        some (rc, tree', mem') ∧ (rc = 0 ∨ rc = -1) ∧ AVL tree'.root ∧
        check_height tree'.root = some (avltree_node_height tree'.root)) ∧
    (∃ rc tree' mem', avltree_add area_cmp_node (test_tree 16) ⟨5, 1⟩ ⟨none, none, 0⟩ =
        some (rc, tree', mem') ∧ (rc = 0 ∨ rc = -1) ∧ AVL tree'.root ∧
        check_height tree'.root = some (avltree_node_height tree'.root)) :=
  ⟨⟨area_cmp_node_strict, by decide, by decide⟩,
   avltree_add_keeps_AVL area_cmp_node (test_tree 16) ⟨17, 1⟩ ⟨none, none, 0⟩
     area_cmp_node_strict (by decide) (by decide),
   avltree_add_keeps_AVL area_cmp_node (test_tree 16) ⟨5, 1⟩ ⟨none, none, 0⟩
     area_cmp_node_strict (by decide) (by decide)⟩

/-- C3: on an ordered AVL tree, `avltree_add` of a node that compares unequal to every node
of the tree returns `0`; the in-order sequence of the result is the old one with the node
linked between the nodes below it and the nodes above it, so it is strictly ascending and
holds the old nodes and the new one, each once. -/
theorem avltree_add_inserts (cmpnode : α → α → Int) (tree : avltree α) (node : α)
    (mem : avlfields α) (hc : StrictTotalOrder cmpnode) (ho : Ordered cmpnode tree.root)
    (ha : AVL tree.root) (hnew : ∀ e ∈ inorder tree.root, cmpnode e node ≠ 0) :
    ∃ tree' mem', avltree_add cmpnode tree node mem = some (0, tree', mem') ∧
      (∃ xs ys, inorder tree.root = xs ++ ys ∧ inorder tree'.root = xs ++ node :: ys ∧
        (∀ a ∈ xs, cmpnode a node < 0) ∧ (∀ b ∈ ys, cmpnode node b < 0)) ∧
      Ordered cmpnode tree'.root ∧ (inorder tree'.root).Perm (node :: inorder tree.root) := by
  obtain ⟨rc, tree', mem', eq, -, h⟩ := avltree_add_spec cmpnode hc tree node mem ha ho
  rcases h with ⟨⟨e, he, hz⟩, -⟩ | ⟨-, rfl, -, -, -, xs, ys, i1, i2, bx, bys⟩
  · exact absurd hz (hnew e he)
  · refine ⟨tree', mem', eq, ⟨xs, ys, i1, i2, bx, fun b hb => (hc.swap _ _).2 (bys b hb)⟩, ?_, ?_⟩
    · rw [Ordered, i2]
      rw [Ordered, i1] at ho
      exact pairwise_insert hc xs ys node ho bx bys
    · rw [i1, i2]
      exact List.perm_middle

/-- Witness of C3: inserting the new address 17 into the 16-node tree of the test program. -/
theorem avltree_add_inserts_witness :
    (StrictTotalOrder area_cmp_node ∧ Ordered area_cmp_node (test_tree 16).root ∧
      AVL (test_tree 16).root ∧
      ∀ e ∈ inorder (test_tree 16).root, area_cmp_node e ⟨17, 1⟩ ≠ 0) ∧
    ∃ tree' mem', avltree_add area_cmp_node (test_tree 16) ⟨17, 1⟩ ⟨none, none, 0⟩ =
        some (0, tree', mem') ∧
      (∃ xs ys, inorder (test_tree 16).root = xs ++ ys ∧
        inorder tree'.root = xs ++ (⟨17, 1⟩ : area) :: ys ∧
        (∀ a ∈ xs, area_cmp_node a ⟨17, 1⟩ < 0) ∧ (∀ b ∈ ys, area_cmp_node ⟨17, 1⟩ b < 0)) ∧
      Ordered area_cmp_node tree'.root ∧
      (inorder tree'.root).Perm (⟨17, 1⟩ :: inorder (test_tree 16).root) :=
  ⟨⟨area_cmp_node_strict, by decide, by decide, by decide⟩,
   avltree_add_inserts area_cmp_node (test_tree 16) ⟨17, 1⟩ ⟨none, none, 0⟩
     area_cmp_node_strict (by decide) (by decide) (by decide)⟩

/-- C6: on an ordered AVL tree `avltree_add` returns `-1` if and only if a node comparing
equal is in the tree; the tree is then unchanged (the same root pointer with the same links
and cached heights below it, the same count) and the fields of the rejected node are not
written. -/
theorem avltree_add_rejects (cmpnode : α → α → Int) (tree : avltree α) (node : α)
    (mem : avlfields α) (hc : StrictTotalOrder cmpnode) (ho : Ordered cmpnode tree.root)
    (ha : AVL tree.root) :
    ∃ rc tree' mem', avltree_add cmpnode tree node mem = some (rc, tree', mem') ∧
      (rc = -1 ↔ ∃ e ∈ inorder tree.root, cmpnode e node = 0) ∧
      (rc = -1 → tree'.root = tree.root ∧ tree'.count = tree.count ∧ mem' = mem) := by
  obtain ⟨rc, tree', mem', eq, -, h⟩ := avltree_add_spec cmpnode hc tree node mem ha ho
  refine ⟨rc, tree', mem', eq, ?_⟩
  rcases h with ⟨he, rfl, rfl, rfl⟩ | ⟨hno, rfl, -⟩
  · exact ⟨⟨fun _ => he, fun _ => rfl⟩, fun _ => ⟨rfl, rfl, rfl⟩⟩
  · refine ⟨⟨fun h => absurd h (by decide), fun ⟨e, he, hz⟩ => absurd hz (hno e he)⟩, ?_⟩
    intro h
    exact absurd h (by decide)

/-- Witness of C6: a second node with the address 5 (and another size) is rejected by the
16-node tree of the test program. -/
theorem avltree_add_rejects_witness :
    (StrictTotalOrder area_cmp_node ∧ Ordered area_cmp_node (test_tree 16).root ∧
      AVL (test_tree 16).root) ∧
    ∃ rc tree' mem', avltree_add area_cmp_node (test_tree 16) ⟨5, 2⟩ ⟨none, none, 7⟩ =
        some (rc, tree', mem') ∧
      (rc = -1 ↔ ∃ e ∈ inorder (test_tree 16).root, area_cmp_node e ⟨5, 2⟩ = 0) ∧
      (rc = -1 → tree'.root = (test_tree 16).root ∧ tree'.count = (test_tree 16).count ∧
        mem' = ⟨none, none, 7⟩) :=
  ⟨⟨area_cmp_node_strict, by decide, by decide⟩,
   avltree_add_rejects area_cmp_node (test_tree 16) ⟨5, 2⟩ ⟨none, none, 7⟩
     area_cmp_node_strict (by decide) (by decide)⟩

/-! ## Claims on deletion -/

/-- C2: on an ordered tree that satisfies the AVL invariant, `avltree_del` with any key and
`avltree_node_del` with any node, present or absent, return and leave a tree that satisfies
the AVL invariant at every node (also when the removed node has two children and its
in-order successor takes its place); the assertions of `check_height` of the test program
pass on it. -/
theorem avltree_del_keeps_AVL (cmpnode : α → α → Int) (cmpkey : α → κ → Int)
    (tree : avltree α) (key : κ) (node : α) (hc : StrictTotalOrder cmpnode)
    (ho : Ordered cmpnode tree.root) (ha : AVL tree.root) :
    (∃ tree' ret, avltree_del cmpnode cmpkey tree key = some (tree', ret) ∧ AVL tree'.root ∧
      check_height tree'.root = some (avltree_node_height tree'.root)) ∧
    (∃ tree' ret, avltree_node_del cmpnode tree node = some (tree', ret) ∧ AVL tree'.root ∧
      check_height tree'.root = some (avltree_node_height tree'.root)) := by
  obtain ⟨t1, r1, e1, a1, -⟩ :=
    avltree_del_spec cmpnode hc cmpkey tree key False ha ho (fun k => k.elim)
  obtain ⟨t2, r2, e2, a2, -⟩ := avltree_node_del_spec cmpnode hc tree node ha ho
  exact ⟨⟨t1, r1, e1, a1, (check_height_iff _ _).2 ⟨a1, a1.cached⟩⟩,
    ⟨t2, r2, e2, a2, (check_height_iff _ _).2 ⟨a2, a2.cached⟩⟩⟩

/-- Witness of C2: deleting the key 5 and the node with address 13, which both have two
children, from the 16-node tree of the test program. -/
theorem avltree_del_keeps_AVL_witness :
    (StrictTotalOrder area_cmp_node ∧ Ordered area_cmp_node (test_tree 16).root ∧
      AVL (test_tree 16).root) ∧
    (∃ tree' ret, avltree_del area_cmp_node area_cmp_addr (test_tree 16) 5 =
        some (tree', ret) ∧ AVL tree'.root ∧
      check_height tree'.root = some (avltree_node_height tree'.root)) ∧
    (∃ tree' ret, avltree_node_del area_cmp_node (test_tree 16) ⟨13, 1⟩ = some (tree', ret) ∧
      AVL tree'.root ∧ check_height tree'.root = some (avltree_node_height tree'.root)) :=
  ⟨⟨area_cmp_node_strict, by decide, by decide⟩,
   avltree_del_keeps_AVL area_cmp_node area_cmp_addr (test_tree 16) 5 ⟨13, 1⟩
     area_cmp_node_strict (by decide) (by decide)⟩

/-- C4 (as stated): `avltree_del` does not return every node its key matches.  On the
ordered AVL tree of the overlapping areas `[1, 3)` and `[2, 4)` (built by `avltree_add`)
the key 2 matches the node with address 2, and `avltree_del` returns the node with
address 1, which the key matches too and the descent meets first.  On the ordered AVL tree
of the nested areas `[2, 3)` and `[1, 6)` the key 4 matches the node with address 1 and no
other, and `avltree_del` returns none: at the root the comparator sends the descent to the
right. -/
theorem avltree_del_not_every_match :
    (StrictTotalOrder area_cmp_node ∧
      (avltree_add area_cmp_node avltree_init ⟨1, 2⟩ ⟨none, none, 0⟩).bind
        (fun res => avltree_add area_cmp_node res.2.1 ⟨2, 2⟩ ⟨none, none, 0⟩) =
        some (0, overlap_tree, ⟨none, none, 0⟩) ∧
      Ordered area_cmp_node overlap_tree.root ∧ AVL overlap_tree.root ∧
      (⟨2, 2⟩ : area) ∈ inorder overlap_tree.root ∧ area_cmp_addr ⟨2, 2⟩ 2 = 0 ∧
      (avltree_del area_cmp_node area_cmp_addr overlap_tree 2).map (fun res => res.2) =
        some (some ⟨1, 2⟩) ∧
      (⟨1, 2⟩ : area) ≠ ⟨2, 2⟩) ∧
    ((avltree_add area_cmp_node avltree_init ⟨2, 1⟩ ⟨none, none, 0⟩).bind
        (fun res => avltree_add area_cmp_node res.2.1 ⟨1, 5⟩ ⟨none, none, 0⟩) =
        some (0, nested_tree, ⟨none, none, 0⟩) ∧
      Ordered area_cmp_node nested_tree.root ∧ AVL nested_tree.root ∧
      (⟨1, 5⟩ : area) ∈ inorder nested_tree.root ∧ area_cmp_addr ⟨1, 5⟩ 4 = 0 ∧
      (∀ e ∈ inorder nested_tree.root, area_cmp_addr e 4 = 0 → e = ⟨1, 5⟩) ∧
      (avltree_del area_cmp_node area_cmp_addr nested_tree 4).map (fun res => res.2) =
        some none) :=
  ⟨⟨area_cmp_node_strict, by decide, by decide, by decide, by decide, by decide, by decide,
      by decide⟩,
   by decide, by decide, by decide, by decide, by decide, by decide, by decide⟩

/-- C4 (amended): on an AVL tree ordered by the node comparator, `avltree_del` with a key
for which the tree is ordered consistently with the key comparator and that matches the
node `n` of the tree and no other node of it, and `avltree_node_del` with a node `n` of the
tree, return exactly `n`; the in-order sequence of the result is the old one with `n`
removed, the other nodes keeping their order. -/
theorem avltree_del_removes (cmpnode : α → α → Int) (cmpkey : α → κ → Int)
    (tree : avltree α) (hc : StrictTotalOrder cmpnode) (ho : Ordered cmpnode tree.root)
    (ha : AVL tree.root) :
    (∀ (key : κ) (n : α), KeyOrdered cmpkey key tree.root → n ∈ inorder tree.root →
      cmpkey n key = 0 → (∀ e ∈ inorder tree.root, cmpkey e key = 0 → e = n) →
      ∃ tree', avltree_del cmpnode cmpkey tree key = some (tree', some n) ∧
        ∃ xs ys, inorder tree.root = xs ++ n :: ys ∧ inorder tree'.root = xs ++ ys) ∧
    (∀ n : α, n ∈ inorder tree.root →
      ∃ tree', avltree_node_del cmpnode tree n = some (tree', some n) ∧
        ∃ xs ys, inorder tree.root = xs ++ n :: ys ∧ inorder tree'.root = xs ++ ys) := by
  constructor
  · intro key n hk hn hm hu
    obtain ⟨t1, r1, e1, -, h⟩ :=
      avltree_del_spec cmpnode hc cmpkey tree key True ha ho (fun _ => hk)
    rcases h with ⟨no, -⟩ | ⟨e, xs, ys, he, rfl, i1, i2, -⟩
    · exact absurd hm (no n hn trivial)
    · have : e = n := hu e (by rw [i1]; simp) he
      subst this
      exact ⟨t1, e1, xs, ys, i1, i2⟩
  · intro n hn
    obtain ⟨t1, r1, e1, -, h⟩ := avltree_node_del_spec cmpnode hc tree n ha ho
    rcases h with ⟨no, -⟩ | ⟨e, xs, ys, he, rfl, i1, i2, -⟩
    · exact absurd (hc.irrefl n) (no n hn)
    · have : e = n := eq_of_cmp_eq_zero hc _ ho e (by rw [i1]; simp) n hn he
      subst this
      exact ⟨t1, e1, xs, ys, i1, i2⟩

/-- Witness of C4: deleting the key 5 and the node with address 13 from the 16-node tree of
the test program. -/
theorem avltree_del_removes_witness :
    (StrictTotalOrder area_cmp_node ∧ Ordered area_cmp_node (test_tree 16).root ∧
      AVL (test_tree 16).root ∧ KeyOrdered area_cmp_addr 5 (test_tree 16).root ∧
      (⟨5, 1⟩ : area) ∈ inorder (test_tree 16).root ∧ area_cmp_addr ⟨5, 1⟩ 5 = 0 ∧
      (∀ e ∈ inorder (test_tree 16).root, area_cmp_addr e 5 = 0 → e = ⟨5, 1⟩) ∧
      (⟨13, 1⟩ : area) ∈ inorder (test_tree 16).root) ∧
    (∃ tree', avltree_del area_cmp_node area_cmp_addr (test_tree 16) 5 =
        some (tree', some ⟨5, 1⟩) ∧
      ∃ xs ys, inorder (test_tree 16).root = xs ++ (⟨5, 1⟩ : area) :: ys ∧
        inorder tree'.root = xs ++ ys) ∧
    (∃ tree', avltree_node_del area_cmp_node (test_tree 16) ⟨13, 1⟩ =
        some (tree', some ⟨13, 1⟩) ∧
      ∃ xs ys, inorder (test_tree 16).root = xs ++ (⟨13, 1⟩ : area) :: ys ∧
        inorder tree'.root = xs ++ ys) :=
  ⟨⟨area_cmp_node_strict, by decide, by decide, by decide, by decide, by decide, by decide,
      by decide⟩,
   (avltree_del_removes area_cmp_node area_cmp_addr (test_tree 16) area_cmp_node_strict
      (by decide) (by decide)).1 5 ⟨5, 1⟩ (by decide) (by decide) (by decide) (by decide),
   (avltree_del_removes area_cmp_node area_cmp_addr (test_tree 16) area_cmp_node_strict
      (by decide) (by decide)).2 ⟨13, 1⟩ (by decide)⟩

/-- C7: on an ordered AVL tree, `avltree_del` with a key that matches no node of the tree,
and `avltree_node_del` with a node that compares equal to no node of the tree, return none
and leave the tree unchanged: the same root pointer with the same links and cached heights
below it, and the same count. -/
theorem avltree_del_absent (cmpnode : α → α → Int) (cmpkey : α → κ → Int)
    (tree : avltree α) (hc : StrictTotalOrder cmpnode) (ho : Ordered cmpnode tree.root)
    (ha : AVL tree.root) :
    (∀ key : κ, (∀ e ∈ inorder tree.root, cmpkey e key ≠ 0) →
      ∃ tree', avltree_del cmpnode cmpkey tree key = some (tree', none) ∧
        tree'.root = tree.root ∧ tree'.count = tree.count) ∧
    (∀ node : α, (∀ e ∈ inorder tree.root, cmpnode e node ≠ 0) →
      ∃ tree', avltree_node_del cmpnode tree node = some (tree', none) ∧
        tree'.root = tree.root ∧ tree'.count = tree.count) := by
  constructor
  · intro key hno
    obtain ⟨t1, r1, e1, -, h⟩ :=
      avltree_del_spec cmpnode hc cmpkey tree key False ha ho (fun k => k.elim)
    rcases h with ⟨-, rfl, rfl⟩ | ⟨e, xs, ys, he, -, i1, -⟩
    · exact ⟨_, e1, rfl, rfl⟩
    · exact absurd he (hno e (by rw [i1]; simp))
  · intro node hno
    obtain ⟨t1, r1, e1, -, h⟩ := avltree_node_del_spec cmpnode hc tree node ha ho
    rcases h with ⟨-, rfl, rfl⟩ | ⟨e, xs, ys, he, -, i1, -⟩
    · exact ⟨_, e1, rfl, rfl⟩
    · exact absurd he (hno e (by rw [i1]; simp))

/-- Witness of C7: the key 0 and a node with address 17 are absent from the 16-node tree of
the test program. -/
theorem avltree_del_absent_witness :
    (StrictTotalOrder area_cmp_node ∧ Ordered area_cmp_node (test_tree 16).root ∧
      AVL (test_tree 16).root ∧
      (∀ e ∈ inorder (test_tree 16).root, area_cmp_addr e 0 ≠ 0) ∧
      (∀ e ∈ inorder (test_tree 16).root, area_cmp_node e ⟨17, 1⟩ ≠ 0)) ∧
    (∃ tree', avltree_del area_cmp_node area_cmp_addr (test_tree 16) 0 = some (tree', none) ∧
      tree'.root = (test_tree 16).root ∧ tree'.count = (test_tree 16).count) ∧
    (∃ tree', avltree_node_del area_cmp_node (test_tree 16) ⟨17, 1⟩ = some (tree', none) ∧
      tree'.root = (test_tree 16).root ∧ tree'.count = (test_tree 16).count) :=
  ⟨⟨area_cmp_node_strict, by decide, by decide, by decide, by decide⟩,
   (avltree_del_absent area_cmp_node area_cmp_addr (test_tree 16) area_cmp_node_strict
      (by decide) (by decide)).1 0 (by decide),
   (avltree_del_absent area_cmp_node area_cmp_addr (test_tree 16) area_cmp_node_strict
      (by decide) (by decide)).2 ⟨17, 1⟩ (by decide)⟩

/-! ## Claims on the count, the lookup and the teardown -/

/-- C8: on an ordered AVL tree whose `count` is the number of nodes reachable from `root`
(these nodes, distinct objects in memory, being fewer than `SIZE_MAX`), `count` is again
the number of reachable nodes after `avltree_add`, `avltree_del` and `avltree_node_del`:
it grows by exactly 1 when `avltree_add` returns `0` and is unchanged when it returns `-1`;
it shrinks by exactly 1 when a delete returns a node (with two children or not) and is
unchanged when the delete returns none. -/
theorem count_is_node_count (cmpnode : α → α → Int) (cmpkey : α → κ → Int) (tree : avltree α)
    (hc : StrictTotalOrder cmpnode) (ho : Ordered cmpnode tree.root) (ha : AVL tree.root)
    (hcount : tree.count = node_count tree.root) (hfit : node_count tree.root + 1 < SIZE_MOD) :
    (∀ (node : α) (mem : avlfields α),
      ∃ rc tree' mem', avltree_add cmpnode tree node mem = some (rc, tree', mem') ∧
        tree'.count = node_count tree'.root ∧ (rc = 0 ∨ rc = -1) ∧
        (rc = 0 → tree'.count = tree.count + 1) ∧ (rc = -1 → tree'.count = tree.count)) ∧
    (∀ key : κ,
      ∃ tree' ret, avltree_del cmpnode cmpkey tree key = some (tree', ret) ∧
        tree'.count = node_count tree'.root ∧
        (ret ≠ none → tree'.count + 1 = tree.count) ∧ (ret = none → tree'.count = tree.count)) ∧
    (∀ node : α,
      ∃ tree' ret, avltree_node_del cmpnode tree node = some (tree', ret) ∧
        tree'.count = node_count tree'.root ∧
        (ret ≠ none → tree'.count + 1 = tree.count) ∧
        (ret = none → tree'.count = tree.count)) := by
  have hdel : ∀ (hit miss : α → Prop) (tree' : avltree α) (ret : Option α),
      (((∀ e ∈ inorder tree.root, miss e) ∧ ret = none ∧ tree' = { tree with ref := none }) ∨
       (∃ e xs ys, hit e ∧ ret = some e ∧ inorder tree.root = xs ++ e :: ys ∧
          inorder tree'.root = xs ++ ys ∧
          tree'.count = (tree.count + SIZE_MOD - 1) % SIZE_MOD ∧ tree'.ref = some e)) →
      tree'.count = node_count tree'.root ∧
        (ret ≠ none → tree'.count + 1 = tree.count) ∧
        (ret = none → tree'.count = tree.count) := by
    intro hit miss tree' ret h
    rcases h with ⟨-, rfl, rfl⟩ | ⟨e, xs, ys, -, rfl, i1, i2, ct, -⟩
    · exact ⟨hcount, fun h => absurd rfl h, fun _ => rfl⟩
    · have n1 : node_count tree.root = xs.length + ys.length + 1 := by
        rw [node_count_eq, i1]; simp; omega
      have n2 : node_count tree'.root = xs.length + ys.length := by
        rw [node_count_eq, i2]; simp
      simp only [SIZE_MOD] at ct hfit
      norm_num at ct hfit
      refine ⟨by omega, fun _ => by omega, fun h => by cases h⟩
  refine ⟨?_, ?_, ?_⟩
  · intro node mem
    obtain ⟨rc, tree', mem', eq, -, h⟩ := avltree_add_spec cmpnode hc tree node mem ha ho
    refine ⟨rc, tree', mem', eq, ?_⟩
    rcases h with ⟨-, rfl, rfl, -⟩ | ⟨-, rfl, ct, -, -, xs, ys, i1, i2, -⟩
    · exact ⟨hcount, Or.inr rfl, fun h => absurd h (by decide), fun _ => rfl⟩
    · have n1 : node_count tree.root = xs.length + ys.length := by
        rw [node_count_eq, i1]; simp
      have n2 : node_count tree'.root = xs.length + ys.length + 1 := by
        rw [node_count_eq, i2]; simp; omega
      simp only [SIZE_MOD] at ct hfit
      norm_num at ct hfit
      exact ⟨by omega, Or.inl rfl, fun _ => by omega, fun h => absurd h (by decide)⟩
  · intro key
    obtain ⟨t1, r1, e1, -, h⟩ :=
      avltree_del_spec cmpnode hc cmpkey tree key False ha ho (fun k => k.elim)
    exact ⟨t1, r1, e1, hdel _ _ t1 r1 h⟩
  · intro node
    obtain ⟨t1, r1, e1, -, h⟩ := avltree_node_del_spec cmpnode hc tree node ha ho
    exact ⟨t1, r1, e1, hdel _ _ t1 r1 h⟩

/-- Witness of C8: on the 16-node tree of the test program, adding the addresses 17 (new)
and 5 (present), deleting the keys 5 (two children) and 0 (absent) and the nodes with
addresses 13 and 17. -/
theorem count_is_node_count_witness :
    (StrictTotalOrder area_cmp_node ∧ Ordered area_cmp_node (test_tree 16).root ∧
      AVL (test_tree 16).root ∧ (test_tree 16).count = node_count (test_tree 16).root ∧
      node_count (test_tree 16).root + 1 < SIZE_MOD) ∧
    (∀ (node : area) (mem : avlfields area),
      ∃ rc tree' mem', avltree_add area_cmp_node (test_tree 16) node mem =
          some (rc, tree', mem') ∧
        tree'.count = node_count tree'.root ∧ (rc = 0 ∨ rc = -1) ∧
        (rc = 0 → tree'.count = (test_tree 16).count + 1) ∧
        (rc = -1 → tree'.count = (test_tree 16).count)) ∧
    (∃ tree' ret, avltree_del area_cmp_node area_cmp_addr (test_tree 16) 5 =
        some (tree', ret) ∧ tree'.count = node_count tree'.root ∧
        (ret ≠ none → tree'.count + 1 = (test_tree 16).count) ∧
        (ret = none → tree'.count = (test_tree 16).count)) ∧
    (∃ tree' ret, avltree_node_del area_cmp_node (test_tree 16) ⟨13, 1⟩ =
        some (tree', ret) ∧ tree'.count = node_count tree'.root ∧
        (ret ≠ none → tree'.count + 1 = (test_tree 16).count) ∧
        (ret = none → tree'.count = (test_tree 16).count)) :=
  have h := count_is_node_count area_cmp_node area_cmp_addr (test_tree 16)
    area_cmp_node_strict (by decide) (by decide) (by decide) (by decide)
  ⟨⟨area_cmp_node_strict, by decide, by decide, by decide, by decide⟩,
   h.1, h.2.1 5, h.2.2 ⟨13, 1⟩⟩

/-- C5: on a tree ordered consistently with the node-vs-key comparator, `avltree_find`
leaves the tree unchanged, returns a node of the tree that the comparator matches to the
key whenever the tree has one, and returns none exactly when no node of the tree matches;
so it does for the key 0 on the tree of the test program, which holds the unit-size keys
1..16. -/
theorem avltree_find_correct (cmpkey : α → κ → Int) (tree : avltree α) (key : κ)
    (hk : KeyOrdered cmpkey key tree.root) :
    (avltree_find cmpkey tree key).1 = tree ∧
    ((∃ e ∈ inorder tree.root, cmpkey e key = 0) →
      ∃ n ∈ inorder tree.root, (avltree_find cmpkey tree key).2 = some n ∧ cmpkey n key = 0) ∧
    ((avltree_find cmpkey tree key).2 = none ↔ ∀ e ∈ inorder tree.root, cmpkey e key ≠ 0) ∧
    (inorder (test_tree 16).root = (List.range 16).map (fun i => ⟨(i + 1 : Nat), 1⟩) ∧
      (avltree_find area_cmp_addr (test_tree 16) 0).2 = none) := by
  refine ⟨rfl, ?_, ⟨?_, ?_⟩, by decide⟩
  · rintro ⟨e, he, hz⟩
    cases hf : avltree_find_from cmpkey tree.root key with
    | none => exact absurd hz (avltree_find_from_none cmpkey key tree.root hk hf e he)
    | some n =>
      have := avltree_find_from_some cmpkey key tree.root n hf
      exact ⟨n, this.1, hf, this.2⟩
  · exact avltree_find_from_none cmpkey key tree.root hk
  · intro hno
    cases hf : avltree_find_from cmpkey tree.root key with
    | none => simp [avltree_find, hf]
    | some n =>
      have := avltree_find_from_some cmpkey key tree.root n hf
      exact absurd this.2 (hno n this.1)

/-- Witness of C5: looking up the key 5 in the 16-node tree of the test program. -/
theorem avltree_find_correct_witness :
    KeyOrdered area_cmp_addr 5 (test_tree 16).root ∧
    (avltree_find area_cmp_addr (test_tree 16) 5).1 = test_tree 16 ∧
    ((∃ e ∈ inorder (test_tree 16).root, area_cmp_addr e 5 = 0) →
      ∃ n ∈ inorder (test_tree 16).root,
        (avltree_find area_cmp_addr (test_tree 16) 5).2 = some n ∧ area_cmp_addr n 5 = 0) ∧
    ((avltree_find area_cmp_addr (test_tree 16) 5).2 = none ↔
      ∀ e ∈ inorder (test_tree 16).root, area_cmp_addr e 5 ≠ 0) ∧
    (inorder (test_tree 16).root = (List.range 16).map (fun i => ⟨(i + 1 : Nat), 1⟩) ∧
      (avltree_find area_cmp_addr (test_tree 16) 0).2 = none) :=
  ⟨by decide, avltree_find_correct area_cmp_addr (test_tree 16) 5 (by decide)⟩

/-- C9 (the code at the failing input): `avltree_free` on the 16-node tree of the test
program leaves `root` null, with no node reachable, and `count` at 16. -/
theorem avltree_free_stale_count :
    (test_tree 16).count = node_count (test_tree 16).root ∧
    (avltree_free (test_tree 16)).1.root = .null ∧
    node_count (avltree_free (test_tree 16)).1.root = 0 ∧
    (avltree_free (test_tree 16)).1.count = 16 := by
  decide

/-! ## Round trip -/

/-- C10 (as stated): `avltree_find` does not return every node its key matches, so the
round trip does not start from every such node.  On the ordered AVL tree of the
overlapping areas `[1, 3)` and `[2, 4)` the key 2 matches the node with address 2 and
`avltree_find` returns the node with address 1; on the ordered AVL tree of the nested areas
`[2, 3)` and `[1, 6)` the key 4 matches the node with address 1 and no other, and
`avltree_find` returns none. -/
theorem avltree_find_not_every_match :
    (StrictTotalOrder area_cmp_node ∧ Ordered area_cmp_node overlap_tree.root ∧
      AVL overlap_tree.root ∧ (⟨2, 2⟩ : area) ∈ inorder overlap_tree.root ∧
      area_cmp_addr ⟨2, 2⟩ 2 = 0 ∧
      (avltree_find area_cmp_addr overlap_tree 2).2 = some ⟨1, 2⟩ ∧
      (⟨1, 2⟩ : area) ≠ ⟨2, 2⟩) ∧
    (Ordered area_cmp_node nested_tree.root ∧ AVL nested_tree.root ∧
      (⟨1, 5⟩ : area) ∈ inorder nested_tree.root ∧ area_cmp_addr ⟨1, 5⟩ 4 = 0 ∧
      (∀ e ∈ inorder nested_tree.root, area_cmp_addr e 4 = 0 → e = ⟨1, 5⟩) ∧
      (avltree_find area_cmp_addr nested_tree 4).2 = none) :=
  ⟨⟨area_cmp_node_strict, by decide, by decide, by decide, by decide, by decide, by decide⟩,
   by decide, by decide, by decide, by decide, by decide, by decide⟩

/-- C10 (amended): on an AVL tree ordered by the node comparator and, for the key,
consistently with the key comparator, when the key matches the node `n` of the tree and no
other node of it, `avltree_find` returns `n`, `avltree_node_del` on `n` returns `n`, and
`avltree_add` of that same node, whatever its stale fields `mem`, resets them and returns
`0`; the final tree has the in-order sequence and the count of the original tree and
satisfies the AVL invariant at every node. -/
theorem find_del_add_round_trip (cmpnode : α → α → Int) (cmpkey : α → κ → Int)
    (tree : avltree α) (key : κ) (n : α) (mem : avlfields α) (hc : StrictTotalOrder cmpnode)
    (ho : Ordered cmpnode tree.root) (ha : AVL tree.root)
    (hk : KeyOrdered cmpkey key tree.root) (hn : n ∈ inorder tree.root)
    (hm : cmpkey n key = 0) (hu : ∀ e ∈ inorder tree.root, cmpkey e key = 0 → e = n)
    (hsz : tree.count < SIZE_MOD) :
    avltree_find cmpkey tree key = (tree, some n) ∧
    ∃ tree1, avltree_node_del cmpnode tree n = some (tree1, some n) ∧
      ∃ tree2, avltree_add cmpnode tree1 n mem =
          some (0, tree2, { l := none, r := none, height := 0 }) ∧
        inorder tree2.root = inorder tree.root ∧ tree2.count = tree.count ∧
        AVL tree2.root := by
  constructor
  · cases hf : avltree_find_from cmpkey tree.root key with
    | none => exact absurd hm (avltree_find_from_none cmpkey key tree.root hk hf n hn)
    | some m =>
      have := avltree_find_from_some cmpkey key tree.root m hf
      rw [avltree_find, hf, hu m this.1 this.2]
  · obtain ⟨t1, r1, e1, a1, h⟩ := avltree_node_del_spec cmpnode hc tree n ha ho
    rcases h with ⟨no, -⟩ | ⟨e, xs, ys, he, rfl, i1, i2, ct, -⟩
    · exact absurd (hc.irrefl n) (no n hn)
    have : e = n := eq_of_cmp_eq_zero hc _ ho e (by rw [i1]; simp) n hn he
    subst this
    refine ⟨t1, e1, ?_⟩
    have ho' := ho
    rw [Ordered, i1, List.pairwise_append] at ho'
    obtain ⟨px, pey, pxy⟩ := ho'
    rw [List.pairwise_cons] at pey
    have bx : ∀ a ∈ xs, cmpnode a e < 0 := fun a ha => pxy a ha e (by simp)
    have bys : ∀ b ∈ ys, 0 < cmpnode b e := fun b hb => (hc.swap _ _).1 (pey.1 b hb)
    have o1 : Ordered cmpnode t1.root := by
      rw [Ordered, i2, List.pairwise_append]
      exact ⟨px, pey.2, fun a ha b hb => pxy a ha b (by simp [hb])⟩
    obtain ⟨rc, t2, mem', e2, a2, h⟩ := avltree_add_spec cmpnode hc t1 e mem a1 o1
    rcases h with ⟨⟨x, hx, hz⟩, -⟩ | ⟨-, rfl, ct2, -, rfl, xs', ys', j1, j2, bx', bys'⟩
    · rw [i2, List.mem_append] at hx
      rcases hx with hx | hx
      · have := bx x hx; omega
      · have := bys x hx; omega
    · refine ⟨t2, e2, ?_, ?_, a2⟩
      · rw [i2] at j1
        obtain ⟨rfl, rfl⟩ := split_unique e xs ys xs' ys' j1 bx bys bx' bys'
        rw [j2, i1]
      · rw [ct2, ct]
        simp only [SIZE_MOD] at hsz ⊢
        norm_num at hsz ⊢
        omega

/-- Witness of C10: the key 5 on the 16-node tree of the test program, the removed node
coming back with the stale fields it had in the tree. -/
theorem find_del_add_round_trip_witness :
    (StrictTotalOrder area_cmp_node ∧ Ordered area_cmp_node (test_tree 16).root ∧
      AVL (test_tree 16).root ∧ KeyOrdered area_cmp_addr 5 (test_tree 16).root ∧
      (⟨5, 1⟩ : area) ∈ inorder (test_tree 16).root ∧ area_cmp_addr ⟨5, 1⟩ 5 = 0 ∧
      (∀ e ∈ inorder (test_tree 16).root, area_cmp_addr e 5 = 0 → e = ⟨5, 1⟩) ∧
      (test_tree 16).count < SIZE_MOD) ∧
    avltree_find area_cmp_addr (test_tree 16) 5 = (test_tree 16, some ⟨5, 1⟩) ∧
    ∃ tree1, avltree_node_del area_cmp_node (test_tree 16) ⟨5, 1⟩ =
        some (tree1, some ⟨5, 1⟩) ∧
      ∃ tree2, avltree_add area_cmp_node tree1 ⟨5, 1⟩ ⟨some ⟨3, 1⟩, some ⟨7, 1⟩, 3⟩ =
          some (0, tree2, { l := none, r := none, height := 0 }) ∧
        inorder tree2.root = inorder (test_tree 16).root ∧
        tree2.count = (test_tree 16).count ∧ AVL tree2.root :=
  ⟨⟨area_cmp_node_strict, by decide, by decide, by decide, by decide, by decide, by decide,
      by decide⟩,
   find_del_add_round_trip area_cmp_node area_cmp_addr (test_tree 16) 5 ⟨5, 1⟩
     ⟨some ⟨3, 1⟩, some ⟨7, 1⟩, 3⟩ area_cmp_node_strict (by decide) (by decide) (by decide)
     (by decide) (by decide) (by decide) (by decide)⟩

/-! ## Traversals -/

theorem walk_append (cb : α → σ → Int × σ) (xs ys : List α) (s : σ) :
    walk cb (xs ++ ys) s =
      match (walk cb xs s).1 with
      | some n => (some n, (walk cb xs s).2)
      | none => walk cb ys (walk cb xs s).2 := by
  induction xs generalizing s with
  | nil => rfl
  | cons x xs ih =>
    simp only [List.cons_append, walk]
    by_cases c : (cb x s).1 ≠ 0
    · rw [if_pos c, if_pos c]
    · rw [if_neg c, if_neg c]
      exact ih _

theorem found_or_none_eta (x : Option α × σ) :
    (match x.1 with
      | some n => (some n, x.2)
      | none => (none, x.2)) = x := by
  obtain ⟨a, b⟩ := x
  cases a <;> rfl

/-- One level of `avltree_node_inorder`, the guards `if (c->l)` and `if (c->r)` dropped:
they skip a call that returns none at once. -/
theorem avltree_node_inorder_mk (cb : α → σ → Int × σ) (l : avlnode α) (c : α) (h : Int)
    (r : avlnode α) (s : σ) :
    avltree_node_inorder cb (.mk l c h r) s =
      match (avltree_node_inorder cb l s).1 with
      | some n => (some n, (avltree_node_inorder cb l s).2)
      | none =>
        if (cb c (avltree_node_inorder cb l s).2).1 ≠ 0 then
          (some c, (cb c (avltree_node_inorder cb l s).2).2)
        else avltree_node_inorder cb r (cb c (avltree_node_inorder cb l s).2).2 := by
  rw [avltree_node_inorder]
  have el : (if non_null l then avltree_node_inorder cb l s else (none, s)) =
      avltree_node_inorder cb l s := by cases l <;> rfl
  simp only [el]
  cases (avltree_node_inorder cb l s).1 with
  | some n => rfl
  | none =>
    simp only []
    by_cases c1 : (cb c (avltree_node_inorder cb l s).2).1 ≠ 0
    · rw [if_pos c1, if_pos c1]
    · rw [if_neg c1, if_neg c1]
      cases r with
      | null => rfl
      | mk rl rn rh rr =>
        simp only [non_null, if_true]
        exact found_or_none_eta _

/-- The walk `avltree_node_inorder` makes is the walk over the in-order sequence. -/
theorem avltree_node_inorder_eq_walk (cb : α → σ → Int × σ) :
    ∀ (p : avlnode α) (s : σ), avltree_node_inorder cb p s = walk cb (inorder p) s := by
  intro p
  induction p with
  | null => intro s; rfl
  | mk l c h r ihl ihr =>
    intro s
    rw [avltree_node_inorder_mk, inorder_mk, walk_append, ihl]
    cases h1 : (walk cb (inorder l) s).1 with
    | some n => rfl
    | none =>
      simp only [walk]
      by_cases c1 : (cb c (walk cb (inorder l) s).2).1 ≠ 0
      · rw [if_pos c1, if_pos c1]
      · rw [if_neg c1, if_neg c1]
        exact ihr _

/-- One level of `avltree_node_preorder`, the guards `if (c->l)` and `if (c->r)` dropped. -/
theorem avltree_node_preorder_mk (cb : α → σ → Int × σ) (l : avlnode α) (c : α) (h : Int)
    (r : avlnode α) (s : σ) :
    avltree_node_preorder cb (.mk l c h r) s =
      if (cb c s).1 ≠ 0 then (some c, (cb c s).2)
      else
        match (avltree_node_preorder cb l (cb c s).2).1 with
        | some n => (some n, (avltree_node_preorder cb l (cb c s).2).2)
        | none => avltree_node_preorder cb r (avltree_node_preorder cb l (cb c s).2).2 := by
  rw [avltree_node_preorder]
  have el : (if non_null l then avltree_node_preorder cb l (cb c s).2 else (none, (cb c s).2)) =
      avltree_node_preorder cb l (cb c s).2 := by cases l <;> rfl
  simp only [el]
  by_cases c1 : (cb c s).1 ≠ 0
  · rw [if_pos c1, if_pos c1]
  · rw [if_neg c1, if_neg c1]
    cases (avltree_node_preorder cb l (cb c s).2).1 with
    | some n => rfl
    | none =>
      simp only []
      cases r with
      | null => rfl
      | mk rl rn rh rr =>
        simp only [non_null, if_true]
        exact found_or_none_eta _

/-- The walk `avltree_node_preorder` makes is the walk over the pre-order sequence. -/
theorem avltree_node_preorder_eq_walk (cb : α → σ → Int × σ) :
    ∀ (p : avlnode α) (s : σ), avltree_node_preorder cb p s = walk cb (preorder p) s := by
  intro p
  induction p with
  | null => intro s; rfl
  | mk l c h r ihl ihr =>
    intro s
    rw [avltree_node_preorder_mk, preorder, walk]
    by_cases c1 : (cb c s).1 ≠ 0
    · rw [if_pos c1, if_pos c1]
    · rw [if_neg c1, if_neg c1, walk_append, ihl]
      cases h1 : (walk cb (preorder l) (cb c s).2).1 with
      | some n => rfl
      | none => exact ihr _

/-- One level of `avltree_node_revorder`, the guards `if (c->r)` and `if (c->l)` dropped. -/
theorem avltree_node_revorder_mk (cb : α → σ → Int × σ) (l : avlnode α) (c : α) (h : Int)
    (r : avlnode α) (s : σ) :
    avltree_node_revorder cb (.mk l c h r) s =
      match (avltree_node_revorder cb r s).1 with
      | some n => (some n, (avltree_node_revorder cb r s).2)
      | none =>
        if (cb c (avltree_node_revorder cb r s).2).1 ≠ 0 then
          (some c, (cb c (avltree_node_revorder cb r s).2).2)
        else avltree_node_revorder cb l (cb c (avltree_node_revorder cb r s).2).2 := by
  rw [avltree_node_revorder]
  have er : (if non_null r then avltree_node_revorder cb r s else (none, s)) =
      avltree_node_revorder cb r s := by cases r <;> rfl
  simp only [er]
  cases (avltree_node_revorder cb r s).1 with
  | some n => rfl
  | none =>
    simp only []
    by_cases c1 : (cb c (avltree_node_revorder cb r s).2).1 ≠ 0
    · rw [if_pos c1, if_pos c1]
    · rw [if_neg c1, if_neg c1]
      cases l with
      | null => rfl
      | mk ll ln lh lr =>
        simp only [non_null, if_true]
        exact found_or_none_eta _

/-- The walk `avltree_node_revorder` makes is the walk over the reverse-order sequence. -/
theorem avltree_node_revorder_eq_walk (cb : α → σ → Int × σ) :
    ∀ (p : avlnode α) (s : σ), avltree_node_revorder cb p s = walk cb (revorder p) s := by
  intro p
  induction p with
  | null => intro s; rfl
  | mk l c h r ihl ihr =>
    intro s
    rw [avltree_node_revorder_mk, revorder, walk_append, ihr]
    cases h1 : (walk cb (revorder r) s).1 with
    | some n => rfl
    | none =>
      simp only [walk]
      by_cases c1 : (cb c (walk cb (revorder r) s).2).1 ≠ 0
      · rw [if_pos c1, if_pos c1]
      · rw [if_neg c1, if_neg c1]
        exact ihl _

theorem avltree_inorder_eq_walk (cb : α → σ → Int × σ) (tree : avltree α) (s : σ) :
    avltree_inorder cb tree s = walk cb (inorder tree.root) s := by
  rw [avltree_inorder, ← avltree_node_inorder_eq_walk]
  cases tree.root <;> rfl

theorem avltree_preorder_eq_walk (cb : α → σ → Int × σ) (tree : avltree α) (s : σ) :
    avltree_preorder cb tree s = walk cb (preorder tree.root) s := by
  rw [avltree_preorder, ← avltree_node_preorder_eq_walk]
  cases tree.root <;> rfl

theorem avltree_revorder_eq_walk (cb : α → σ → Int × σ) (tree : avltree α) (s : σ) :
    avltree_revorder cb tree s = walk cb (revorder tree.root) s := by
  rw [avltree_revorder, ← avltree_node_revorder_eq_walk]
  cases tree.root <;> rfl

/-- The reverse-order sequence is the in-order sequence reversed. -/
theorem revorder_eq_reverse (t : avlnode α) : revorder t = (inorder t).reverse := by
  induction t with
  | null => rfl
  | mk l n h r ihl ihr => simp [revorder, ihl, ihr]

/-- A walk on which the callback never stops returns none. -/
theorem walk_all_zero (cb : α → σ → Int × σ) (h0 : ∀ n s, (cb n s).1 = 0) (xs : List α)
    (s : σ) : (walk cb xs s).1 = none := by
  induction xs generalizing s with
  | nil => rfl
  | cons x xs ih => rw [walk, if_neg (by simp [h0]), ih]

/-- A walk with a callback that records its calls and stops where `f` is non-zero: either
`f` is zero on all nodes, none is returned and every node is recorded, in the order of the
walk; or the walk returns the first node `x` where `f` is non-zero and the nodes recorded
are those before `x`, and `x`. -/
theorem walk_recorded (f : α → Int) (xs : List α) (v : List α) :
    ((∀ y ∈ xs, f y = 0) ∧ walk (fun n w => (f n, w ++ [n])) xs v = (none, v ++ xs)) ∨
    (∃ pre x post, xs = pre ++ x :: post ∧ (∀ y ∈ pre, f y = 0) ∧ f x ≠ 0 ∧
      walk (fun n w => (f n, w ++ [n])) xs v = (some x, v ++ pre ++ [x])) := by
  induction xs generalizing v with
  | nil => left; exact ⟨by simp, by simp [walk]⟩
  | cons a xs ih =>
    by_cases c : f a ≠ 0
    · right
      exact ⟨[], a, xs, rfl, by simp, c, by simp [walk, c]⟩
    · rcases ih (v ++ [a]) with ⟨h1, h2⟩ | ⟨pre, x, post, h1, h2, h3, h4⟩
      · left
        refine ⟨fun y hy => ?_, ?_⟩
        · rcases List.mem_cons.1 hy with rfl | hy
          · simpa using c
          · exact h1 y hy
        · rw [walk, if_neg c, h2]; simp
      · right
        refine ⟨a :: pre, x, post, by simp [h1], fun y hy => ?_, h3, ?_⟩
        · rcases List.mem_cons.1 hy with rfl | hy
          · simpa using c
          · exact h2 y hy
        · rw [walk, if_neg c, h4]; simp

/-- A tree built from the empty tree by insertions and deletions satisfies the AVL
invariant and is ordered. -/
theorem Built.AVL_Ordered {cmpnode : α → α → Int} {cmpkey : α → κ → Int}
    (hc : StrictTotalOrder cmpnode) {tree : avltree α} (hb : Built cmpnode cmpkey tree) :
    AVL tree.root ∧ Ordered cmpnode tree.root := by
  have hsub : ∀ (xs ys : List α) (e : α) (t : avlnode α),
      (xs ++ e :: ys).Pairwise (fun a b => cmpnode a b < 0) → inorder t = xs ++ ys →
      Ordered cmpnode t := by
    intro xs ys e t h i
    rw [Ordered, i]
    exact h.sublist (List.Sublist.append_left (List.sublist_cons_self e ys) xs)
  induction hb with
  | init => exact ⟨AVL_null, List.Pairwise.nil⟩
  | add tree tree' node mem mem' rc _ e ih =>
    obtain ⟨rc2, t2, m2, e2, a2, h⟩ := avltree_add_spec cmpnode hc tree node mem ih.1 ih.2
    rw [e] at e2
    cases e2
    refine ⟨a2, ?_⟩
    rcases h with ⟨-, -, rfl, -⟩ | ⟨-, -, -, -, -, xs, ys, i1, i2, bx, bys⟩
    · exact ih.2
    · rw [Ordered, i2]
      have := ih.2
      rw [Ordered, i1] at this
      exact pairwise_insert hc xs ys node this bx bys
  | del tree tree' key ret _ e ih =>
    obtain ⟨t2, r2, e2, a2, h⟩ :=
      avltree_del_spec cmpnode hc cmpkey tree key False ih.1 ih.2 (fun k => k.elim)
    rw [e] at e2
    cases e2
    refine ⟨a2, ?_⟩
    rcases h with ⟨-, -, rfl⟩ | ⟨x, xs, ys, -, -, i1, i2, -⟩
    · exact ih.2
    · have := ih.2
      rw [Ordered, i1] at this
      exact hsub xs ys x _ this i2
  | node_del tree tree' node ret _ e ih =>
    obtain ⟨t2, r2, e2, a2, h⟩ := avltree_node_del_spec cmpnode hc tree node ih.1 ih.2
    rw [e] at e2
    cases e2
    refine ⟨a2, ?_⟩
    rcases h with ⟨-, -, rfl⟩ | ⟨x, xs, ys, -, -, i1, i2, -⟩
    · exact ih.2
    · have := ih.2
      rw [Ordered, i1] at this
      exact hsub xs ys x _ this i2

/-- The nodes a traversal visits, recorded by a callback that never stops, are the nodes
of the walk in their order. -/
theorem walk_record_cb (xs v : List α) : walk record_cb xs v = (none, v ++ xs) := by
  induction xs generalizing v with
  | nil => simp [walk]
  | cons x xs ih =>
    rw [walk, if_neg (by simp [record_cb]), ih]
    simp [record_cb]

/-- The assertions of `check_order` pass on a walk over nodes with strictly ascending
addresses that are above the address of the node visited before the walk. -/
theorem walk_check_order (xs : List area) (p : Option area)
    (hp : ∀ q, p = some q → ∀ x ∈ xs, q.addr < x.addr)
    (hx : xs.Pairwise (fun a b => a.addr < b.addr)) :
    (walk check_order xs (p, true)).2.2 = true := by
  induction xs generalizing p with
  | nil => rfl
  | cons x xs ih =>
    rw [List.pairwise_cons] at hx
    have e : check_order x (p, true) = (0, (some x, true)) := by
      cases p with
      | none => rfl
      | some q =>
        have := hp q rfl x (by simp)
        simp [check_order, this]
    rw [walk, if_neg (by simp [e]), e]
    exact ih (some x) (fun q hq y hy => by cases hq; exact hx.1 y hy) hx.2

/-- The assertions of `check_rorder` pass on a walk over nodes with strictly descending
addresses that are below the address of the node visited before the walk. -/
theorem walk_check_rorder (xs : List area) (p : Option area)
    (hp : ∀ q, p = some q → ∀ x ∈ xs, x.addr < q.addr)
    (hx : xs.Pairwise (fun a b => b.addr < a.addr)) :
    (walk check_rorder xs (p, true)).2.2 = true := by
  induction xs generalizing p with
  | nil => rfl
  | cons x xs ih =>
    rw [List.pairwise_cons] at hx
    have e : check_rorder x (p, true) = (0, (some x, true)) := by
      cases p with
      | none => rfl
      | some q =>
        have := hp q rfl x (by simp)
        simp [check_rorder, this]
    rw [walk, if_neg (by simp [e]), e]
    exact ih (some x) (fun q hq y hy => by cases hq; exact hx.1 y hy) hx.2

theorem area_cmp_node_lt (a b : area) : area_cmp_node a b < 0 ↔ a.addr < b.addr := by
  unfold area_cmp_node; split_ifs <;> omega

/-- The add loop of the test program builds its tree by calls of `avltree_add`. -/
theorem test_add_loop_Built (cmpkey : area → κ → Int) :
    ∀ (n : Nat) (tree tree' : avltree area), Built area_cmp_node cmpkey tree →
      test_add_loop n tree = some tree' → Built area_cmp_node cmpkey tree' := by
  intro n
  induction n with
  | zero => intro tree tree' hb e; cases e; exact hb
  | succ n ih =>
    intro tree tree' hb e
    rw [test_add_loop] at e
    cases h : avltree_add area_cmp_node tree ⟨(n + 1 : Nat), 1⟩ ⟨none, none, 0⟩ with
    | none => rw [h] at e; cases e
    | some res =>
      obtain ⟨rc, t1, m1⟩ := res
      rw [h] at e
      simp only [] at e
      by_cases c : rc = 0
      · rw [if_pos c] at e
        exact ih t1 tree' (Built.add tree t1 _ _ m1 rc hb h) e
      · rw [if_neg c] at e; cases e

/-! ## Claims on the traversals -/

/-- C11: on every tree `avltree_revorder` visits the nodes in exactly the reverse of the
order in which `avltree_inorder` visits them (the in-order sequence); on every tree built
from the empty tree by calls of `avltree_add`, `avltree_del` and `avltree_node_del` under
a strict total order comparator, `avltree_inorder` visits the nodes in strictly ascending
order and `avltree_revorder` in strictly descending order; with the comparator of the test
program the assertions of its callbacks `check_order` and `check_rorder` pass. -/
theorem traversal_orders (cmpnode : α → α → Int) (cmpkey : α → κ → Int)
    (hc : StrictTotalOrder cmpnode) :
    (∀ tree : avltree α,
      (avltree_inorder record_cb tree []).2 = inorder tree.root ∧
      (avltree_revorder record_cb tree []).2 =
        ((avltree_inorder record_cb tree []).2).reverse) ∧
    (∀ tree : avltree α, Built cmpnode cmpkey tree →
      ((avltree_inorder record_cb tree []).2).Pairwise (fun a b => cmpnode a b < 0) ∧
      ((avltree_revorder record_cb tree []).2).Pairwise (fun a b => 0 < cmpnode a b)) ∧
    (∀ (areakey : area → κ → Int) (tree : avltree area), Built area_cmp_node areakey tree →
      (avltree_inorder check_order tree (none, true)).2.2 = true ∧
      (avltree_revorder check_rorder tree (none, true)).2.2 = true) := by
  have h1 : ∀ tree : avltree α,
      (avltree_inorder record_cb tree []).2 = inorder tree.root ∧
      (avltree_revorder record_cb tree []).2 = (inorder tree.root).reverse := by
    intro tree
    rw [avltree_inorder_eq_walk, avltree_revorder_eq_walk, walk_record_cb, walk_record_cb,
      revorder_eq_reverse]
    exact ⟨rfl, rfl⟩
  refine ⟨fun tree => ?_, fun tree hb => ?_, fun areakey tree hb => ?_⟩
  · rw [(h1 tree).1, (h1 tree).2]
    exact ⟨rfl, rfl⟩
  · have ho := (hb.AVL_Ordered hc).2
    rw [(h1 tree).1, (h1 tree).2, List.pairwise_reverse]
    exact ⟨ho, ho.imp fun h => (hc.swap _ _).1 h⟩
  · have ho := (hb.AVL_Ordered area_cmp_node_strict).2
    have ho2 : (inorder tree.root).Pairwise (fun a b => a.addr < b.addr) :=
      ho.imp fun h => (area_cmp_node_lt _ _).1 h
    rw [avltree_inorder_eq_walk, avltree_revorder_eq_walk, revorder_eq_reverse]
    refine ⟨walk_check_order _ none (fun q hq => by cases hq) ho2,
      walk_check_rorder _ none (fun q hq => by cases hq) ?_⟩
    rw [List.pairwise_reverse]
    exact ho2

/-- Witness of C11: the comparators and the 16-node tree of the test program. -/
theorem traversal_orders_witness :
    (StrictTotalOrder area_cmp_node ∧ Built area_cmp_node area_cmp_addr (test_tree 16)) ∧
    ((avltree_inorder record_cb (test_tree 16) []).2 = inorder (test_tree 16).root ∧
      (avltree_revorder record_cb (test_tree 16) []).2 =
        ((avltree_inorder record_cb (test_tree 16) []).2).reverse) ∧
    (((avltree_inorder record_cb (test_tree 16) []).2).Pairwise
        (fun a b => area_cmp_node a b < 0) ∧
      ((avltree_revorder record_cb (test_tree 16) []).2).Pairwise
        (fun a b => 0 < area_cmp_node a b)) ∧
    ((avltree_inorder check_order (test_tree 16) (none, true)).2.2 = true ∧
      (avltree_revorder check_rorder (test_tree 16) (none, true)).2.2 = true) :=
  have hb : Built area_cmp_node area_cmp_addr (test_tree 16) :=
    test_add_loop_Built area_cmp_addr 16 avltree_init (test_tree 16) Built.init (by decide)
  have h := traversal_orders area_cmp_node area_cmp_addr area_cmp_node_strict
  ⟨⟨area_cmp_node_strict, hb⟩, h.1 (test_tree 16), h.2.1 (test_tree 16) hb,
    h.2.2 area_cmp_addr (test_tree 16) hb⟩

/-- C12: `avltree_inorder`, `avltree_preorder` and `avltree_revorder` walk over the nodes in
left-self-right, self-left-right and right-self-left order: the callback is called on one
node after the other, the walk stops at the first node for which the callback returns
non-zero, returns exactly that node and calls the callback on no node after it; it
returns none when the callback returns zero on every node, and on an empty tree it returns
none without calling the callback (the context is as it was). -/
theorem traversals_correct (cb : α → σ → Int × σ) (tree : avltree α) (s : σ) :
    (avltree_inorder cb tree s = walk cb (inorder tree.root) s ∧
      avltree_preorder cb tree s = walk cb (preorder tree.root) s ∧
      avltree_revorder cb tree s = walk cb (revorder tree.root) s) ∧
    (∀ (f : α → Int) (v : List α),
      FirstStop f (inorder tree.root) v (avltree_inorder (fun n w => (f n, w ++ [n])) tree v) ∧
      FirstStop f (preorder tree.root) v
        (avltree_preorder (fun n w => (f n, w ++ [n])) tree v) ∧
      FirstStop f (revorder tree.root) v
        (avltree_revorder (fun n w => (f n, w ++ [n])) tree v)) ∧
    ((∀ n s', (cb n s').1 = 0) →
      (avltree_inorder cb tree s).1 = none ∧ (avltree_preorder cb tree s).1 = none ∧
      (avltree_revorder cb tree s).1 = none) ∧
    (tree.root = .null →
      avltree_inorder cb tree s = (none, s) ∧ avltree_preorder cb tree s = (none, s) ∧
      avltree_revorder cb tree s = (none, s)) := by
  refine ⟨⟨avltree_inorder_eq_walk _ _ _, avltree_preorder_eq_walk _ _ _,
    avltree_revorder_eq_walk _ _ _⟩, fun f v => ?_, fun h0 => ?_, fun hn => ?_⟩
  · rw [avltree_inorder_eq_walk, avltree_preorder_eq_walk, avltree_revorder_eq_walk]
    exact ⟨walk_recorded f _ v, walk_recorded f _ v, walk_recorded f _ v⟩
  · rw [avltree_inorder_eq_walk, avltree_preorder_eq_walk, avltree_revorder_eq_walk]
    exact ⟨walk_all_zero cb h0 _ s, walk_all_zero cb h0 _ s, walk_all_zero cb h0 _ s⟩
  · rw [avltree_inorder_eq_walk, avltree_preorder_eq_walk, avltree_revorder_eq_walk, hn]
    exact ⟨rfl, rfl, rfl⟩

/-- Witness of C12: on the 16-node tree of the test program a recording callback that
never stops makes the three traversals return none; on the empty tree they return none
and the context is untouched. -/
theorem traversals_correct_witness :
    ((∀ (n : area) (s' : List area), (record_cb n s').1 = 0) ∧
      (avltree_init : avltree area).root = .null) ∧
    ((avltree_inorder record_cb (test_tree 16) []).1 = none ∧
      (avltree_preorder record_cb (test_tree 16) []).1 = none ∧
      (avltree_revorder record_cb (test_tree 16) []).1 = none) ∧
    (avltree_inorder record_cb (avltree_init : avltree area) [] = (none, []) ∧
      avltree_preorder record_cb (avltree_init : avltree area) [] = (none, []) ∧
      avltree_revorder record_cb (avltree_init : avltree area) [] = (none, [])) :=
  ⟨⟨fun _ _ => rfl, rfl⟩,
   (traversals_correct record_cb (test_tree 16) []).2.2.1 (fun _ _ => rfl),
   (traversals_correct record_cb (avltree_init : avltree area) []).2.2.2 rfl⟩

/-! ## Claims on the teardown, the test scenario and deletion by node -/

/-- The destructor calls of `avltree_node_free` are the nodes of the subtree, each as often
as it is linked there. -/
theorem avltree_node_free_perm (t : avlnode α) : (avltree_node_free t).Perm (inorder t) := by
  induction t with
  | null => exact List.Perm.refl _
  | mk l n h r ihl ihr =>
    rw [avltree_node_free, inorder_mk, List.append_assoc]
    refine List.Perm.append ihl ?_
    exact (List.perm_append_comm).trans (List.Perm.cons n ihr)

/-- In the destructor calls of `avltree_node_free`, the call on a node comes after the
calls on all nodes below it. -/
theorem avltree_node_free_children_first (l : avlnode α) (n : α) (h : Int) (r : avlnode α) :
    ∀ t : avlnode α, Subtree (.mk l n h r) t →
      ∃ pre post, avltree_node_free t = pre ++ n :: post ∧
        ∀ c ∈ inorder l ++ inorder r, c ∈ pre := by
  intro t
  induction t with
  | null => intro hs; cases hs
  | mk L N H R ihl ihr =>
    intro hs
    rcases hs with hs | hs | hs
    · cases hs
      refine ⟨avltree_node_free l ++ avltree_node_free r, [], rfl, fun c hc => ?_⟩
      rw [List.mem_append] at hc ⊢
      rcases hc with hc | hc
      · exact Or.inl ((avltree_node_free_perm l).mem_iff.2 hc)
      · exact Or.inr ((avltree_node_free_perm r).mem_iff.2 hc)
    · obtain ⟨pre, post, e, hpre⟩ := ihl hs
      exact ⟨pre, post ++ avltree_node_free R ++ [N], by simp [avltree_node_free, e], hpre⟩
    · obtain ⟨pre, post, e, hpre⟩ := ihr hs
      exact ⟨avltree_node_free L ++ pre, post ++ [N], by simp [avltree_node_free, e],
        fun c hc => List.mem_append_right _ (hpre c hc)⟩

/-- C17: `avltree_free` calls the destructor hook on the nodes of the tree, each exactly as
often as it is linked (once), and on nothing else; the call on a node comes after the
calls on all nodes below it; it leaves `root` null.  `avltree_del` and `avltree_node_del`
make no destructor call. -/
theorem avltree_free_destroys_each_once (cmpnode : α → α → Int) (cmpkey : α → κ → Int)
    (tree : avltree α) (key : κ) (node : α) (calls : List α) :
    ((avltree_free tree).2).Perm (inorder tree.root) ∧
    (∀ (l : avlnode α) (n : α) (h : Int) (r : avlnode α), Subtree (.mk l n h r) tree.root →
      ∃ pre post, (avltree_free tree).2 = pre ++ n :: post ∧
        ∀ c ∈ inorder l ++ inorder r, c ∈ pre) ∧
    (avltree_free tree).1.root = .null ∧
    (avltree_free_run tree calls).2 = calls ++ (avltree_free tree).2 ∧
    (avltree_del_run cmpnode cmpkey tree key calls).2 = calls ∧
    (avltree_node_del_run cmpnode tree node calls).2 = calls :=
  ⟨avltree_node_free_perm tree.root,
   fun l n h r hs => avltree_node_free_children_first l n h r tree.root hs,
   rfl, rfl, rfl, rfl⟩

/-- Witness of C17: in `avltree_free` on the 16-node tree of the test program the node
with address 5, whose children are the nodes with addresses 3 and 7, is destroyed after
the nodes with addresses 1 to 4 and 6 to 8. -/
theorem avltree_free_destroys_each_once_witness :
    Subtree (.mk test_left_of_5 ⟨5, 1⟩ 3 test_right_of_5) (test_tree 16).root ∧
    ∃ pre post, (avltree_free (test_tree 16)).2 = pre ++ (⟨5, 1⟩ : area) :: post ∧
      ∀ c ∈ inorder test_left_of_5 ++ inorder test_right_of_5, c ∈ pre :=
  ⟨by decide,
   (avltree_free_destroys_each_once area_cmp_node area_cmp_addr (test_tree 16) 0 ⟨0, 0⟩
      []).2.1 test_left_of_5 ⟨5, 1⟩ 3 test_right_of_5 (by decide)⟩

/-- C18: inserting the nodes with the keys 16, 15, ..., 1 in this order into the empty
tree, as the test program does: every `avltree_add` returns `0`, `count` is then 16, the
in-order traversal visits the keys 1..16 in ascending order, the AVL invariant holds at
every node and the height of the root, cached and real, is 4. -/
theorem insert_16_down_to_1 :
    ∃ tree : avltree area, test_add_loop 16 avltree_init = some tree ∧ tree.count = 16 ∧
      (avltree_inorder record_cb tree []).2 = (List.range 16).map (fun i => ⟨(i + 1 : Nat), 1⟩) ∧
      inorder tree.root = (List.range 16).map (fun i => ⟨(i + 1 : Nat), 1⟩) ∧
      AVL tree.root ∧ avltree_node_height tree.root = 4 ∧ height tree.root = 4 :=
  ⟨test_tree 16, by decide, by decide, by decide, by decide, by decide, by decide, by decide⟩

/-- Two nodes that compare equal to a third compare equal. -/
theorem StrictTotalOrder.eq_of_eq_eq {cmp : α → α → Int} (hc : StrictTotalOrder cmp)
    {a b c : α} (h1 : cmp a c = 0) (h2 : cmp b c = 0) : cmp a b = 0 := by
  rcases lt_trichotomy (cmp a b) 0 with h | h | h
  · have := hc.lt_eq h h2
    omega
  · exact h
  · have := hc.lt_eq ((hc.swap b a).2 h) h1
    omega

/-- C20: `avltree_node_del` finds the node to remove with the node comparator, not by
identity: on an ordered AVL tree, with a node that is not in the tree but compares equal to
the node `m` of the tree, it unlinks `m`, returns `m` (which is not the node passed) and
decrements `count`. -/
theorem avltree_node_del_by_comparator (cmpnode : α → α → Int) (tree : avltree α)
    (node m : α) (hc : StrictTotalOrder cmpnode) (ho : Ordered cmpnode tree.root)
    (ha : AVL tree.root) (hnode : node ∉ inorder tree.root) (hm : m ∈ inorder tree.root)
    (he : cmpnode m node = 0) :
    ∃ tree', avltree_node_del cmpnode tree node = some (tree', some m) ∧ m ≠ node ∧
      (∃ xs ys, inorder tree.root = xs ++ m :: ys ∧ inorder tree'.root = xs ++ ys) ∧
      tree'.count = (tree.count + SIZE_MOD - 1) % SIZE_MOD := by
  obtain ⟨t1, r1, e1, -, h⟩ := avltree_node_del_spec cmpnode hc tree node ha ho
  rcases h with ⟨no, -⟩ | ⟨e, xs, ys, hz, rfl, i1, i2, ct, -⟩
  · exact absurd he (no m hm)
  · have : e = m :=
      eq_of_cmp_eq_zero hc _ ho e (by rw [i1]; simp) m hm (hc.eq_of_eq_eq hz he)
    subst this
    exact ⟨t1, e1, fun h => hnode (h ▸ hm), ⟨xs, ys, i1, i2⟩, ct⟩

/-- Witness of C20: on the 16-node tree of the test program, a node with address 5 and
size 2, which is not in the tree, makes `avltree_node_del` unlink and return the node of
the tree with address 5 and size 1; `count` goes from 16 to 15. -/
theorem avltree_node_del_by_comparator_witness :
    (StrictTotalOrder area_cmp_node ∧ Ordered area_cmp_node (test_tree 16).root ∧
      AVL (test_tree 16).root ∧ (⟨5, 2⟩ : area) ∉ inorder (test_tree 16).root ∧
      (⟨5, 1⟩ : area) ∈ inorder (test_tree 16).root ∧ area_cmp_node ⟨5, 1⟩ ⟨5, 2⟩ = 0 ∧
      (test_tree 16).count = 16 ∧ (16 + SIZE_MOD - 1) % SIZE_MOD = 15) ∧
    ∃ tree', avltree_node_del area_cmp_node (test_tree 16) ⟨5, 2⟩ =
        some (tree', some ⟨5, 1⟩) ∧ (⟨5, 1⟩ : area) ≠ ⟨5, 2⟩ ∧
      (∃ xs ys, inorder (test_tree 16).root = xs ++ (⟨5, 1⟩ : area) :: ys ∧
        inorder tree'.root = xs ++ ys) ∧
      tree'.count = ((test_tree 16).count + SIZE_MOD - 1) % SIZE_MOD :=
  ⟨⟨area_cmp_node_strict, by decide, by decide, by decide, by decide, by decide, by decide,
      by decide⟩,
   avltree_node_del_by_comparator area_cmp_node (test_tree 16) ⟨5, 2⟩ ⟨5, 1⟩
     area_cmp_node_strict (by decide) (by decide) (by decide) (by decide) (by decide)⟩

/-! ## Global rebalancing: the list -/

@[simp] theorem inorder_chain (xs : List α) : inorder (chain xs) = xs := by
  induction xs with
  | nil => rfl
  | cons x xs ih => simp [chain, ih]

theorem node_count_chain (xs : List α) : node_count (chain xs) = xs.length := by
  rw [node_count_eq, inorder_chain]

/-- What `avlnode_to_list` builds is the right-only chain of the nodes in their in-order
sequence, every cached height 0, and it adds the number of nodes to `*size`. -/
theorem avlnode_to_list_eq (t : avlnode α) (size : Nat) (hsz : size < SIZE_MOD) :
    avlnode_to_list t size = (chain (inorder t), (size + node_count t) % SIZE_MOD) := by
  induction t, size using avlnode_to_list.induct with
  | case1 size =>
    rw [avlnode_to_list]
    simp [chain, node_count, Nat.mod_eq_of_lt hsz]
  | case2 n h r size ih =>
    rw [avlnode_to_list, ih (Nat.mod_lt _ (by simp [SIZE_MOD]))]
    simp only [inorder_mk, inorder_null, List.nil_append, chain, node_count, Prod.mk.injEq,
      true_and]
    rw [Nat.mod_add_mod]
    congr 1
    omega
  | case3 tl tn th tr n h r size ih =>
    rw [avlnode_to_list, ih hsz]
    simp only [inorder_mk, List.append_assoc, List.cons_append, node_count, Prod.mk.injEq,
      true_and]
    congr 1
    omega

/-! ## Global rebalancing: the compression passes -/

theorem compress_zero (t : avlnode α) : compress t 0 = some t := by
  cases t with
  | null => rfl
  | mk l n h r => cases r <;> rfl

theorem compress_succ (cl : avlnode α) (cn : α) (ch : Int) (l2 : avlnode α) (n2 : α) (h2 : Int)
    (r2 : avlnode α) (i : Nat) :
    compress (.mk cl cn ch (.mk l2 n2 h2 r2)) (i + 1) =
      (compress r2 i).map fun r2' =>
        .mk (.mk cl cn ch l2) n2 (imax ch (avltree_node_height r2) + 1) r2' := by
  rw [compress]
  cases compress r2 i <;> rfl

/-- A pass of `compress` keeps the in-order sequence. -/
theorem compress_inorder : ∀ (k : Nat) (t t' : avlnode α), compress t k = some t' →
    inorder t' = inorder t := by
  intro k
  induction k with
  | zero => intro t t' h; rw [compress_zero] at h; cases h; rfl
  | succ k ih =>
    intro t t' h
    cases t with
    | null => cases h
    | mk cl cn ch r =>
      cases r with
      | null => cases h
      | mk l2 n2 h2 r2 =>
        rw [compress_succ] at h
        cases e : compress r2 k with
        | none => rw [e] at h; cases h
        | some r2' =>
          rw [e] at h
          cases h
          simp [ih r2 r2' e]

/-- The cached height at the head of a spine. -/
theorem Spine.node_height {hs : List Int} {T t : avlnode α} (h : Spine hs T t) :
    avltree_node_height t = (hs.head?).getD (avltree_node_height T) := by
  cases hs with
  | nil => cases h; rfl
  | cons a hs => obtain ⟨L, x, r, rfl, -⟩ := h; rfl

/-- A spine whose end is one or two lower than its last node is an AVL tree, of the height
cached at its head. -/
theorem Spine.single {h : Int} {T t : avlnode α} (hs : Spine [h] T t) (hi : SpineInv [h] T) :
    AVL t ∧ height t = h ∧ avltree_node_height t = h := by
  obtain ⟨L, x, r, rfl, aL, hL, rfl⟩ := hs
  obtain ⟨-, aT, hb⟩ := hi
  have := hb h (by simp)
  refine ⟨?_, ?_, rfl⟩
  · rw [AVL_mk_iff]
    exact ⟨aL, aT, by omega, by omega, by omega⟩
  · rw [height_mk]; omega

/-- A full pass of `compress` over a spine of `2 * k + 1` nodes: it finds all the nodes it
dereferences and leaves a spine of `k` nodes, whose cached heights are those of the nodes
at the odd places of the old spine plus 1; the last node of the old spine, now the end of
the new one, is the root of an AVL subtree. -/
theorem compress_pass : ∀ (k : Nat) (hs : List Int) (T t : avlnode α),
    hs.length = 2 * k + 1 → Spine hs T t → SpineInv hs T →
    ∃ t' hs' T', compress t k = some t' ∧ Spine hs' T' t' ∧ hs'.length = k ∧
      SpineInv hs' T' ∧ (∀ b ∈ hs', ∃ a ∈ hs, b = a + 1) ∧
      (∀ a ∈ hs, height T' ≤ a) ∧ height T + 1 ≤ height T' ∧
      (0 < k → hs'.head? = hs.head?.map (· + 1)) := by
  intro k
  induction k with
  | zero =>
    intro hs T t hl hsp hi
    match hs, hl with
    | [h], _ =>
      have h1 := Spine.single hsp hi
      have h2 := hi.2.2 h (by simp)
      refine ⟨t, [], t, compress_zero t, rfl, rfl, ⟨List.Pairwise.nil, h1.1, by simp⟩, by simp,
        ?_, by omega, by simp⟩
      intro a ha
      simp only [List.mem_singleton] at ha
      omega
  | succ k ih =>
    intro hs T t hl hsp hi
    match hs, hl with
    | h1 :: h2 :: rest, hl =>
      obtain ⟨L1, x1, r1, rfl, aL1, hL1, hsp1⟩ := hsp
      obtain ⟨L2, x2, r2, rfl, aL2, hL2, hsp2⟩ := hsp1
      obtain ⟨hp, aT, hb⟩ := hi
      rw [List.pairwise_cons] at hp
      obtain ⟨hp1, hp⟩ := hp
      rw [List.pairwise_cons] at hp
      obtain ⟨hp2, hp⟩ := hp
      have hlr : rest.length = 2 * k + 1 := by simp at hl; omega
      obtain ⟨t'', hs'', T', e, hsp', hl', hi', hfrom, hT', hT'', -⟩ :=
        ih rest T r2 hlr hsp2 ⟨hp, aT, fun b hb' => hb b (by simp [hb'])⟩
      have b1 := hb h1 (by simp)
      have b2 := hb h2 (by simp)
      have h21 := hp1 h2 (by simp)
      -- the cached height of the next node of the old spine is at most `h1`
      have hnext : avltree_node_height r2 ≤ h1 := by
        rw [hsp2.node_height]
        match rest, hlr with
        | h3 :: rest', _ =>
          have := hp1 h3 (by simp)
          simpa using this
      rw [compress_succ, e, Option.map_some']
      refine ⟨.mk (.mk L1 x1 h1 L2) x2 (imax h1 (avltree_node_height r2) + 1) t'',
        (h1 + 1) :: hs'', T', rfl, ?_, by simp [hl'], ?_, ?_, ?_, hT'', by simp⟩
      · refine ⟨.mk L1 x1 h1 L2, x2, t'', ?_, ?_, ?_, hsp'⟩
        · rw [imax_eq]
          congr 1
          omega
        · rw [AVL_mk_iff]
          exact ⟨aL1, aL2, by omega, by omega, by omega⟩
        · rw [height_mk]; omega
      · obtain ⟨hp', aT', hb'⟩ := hi'
        refine ⟨List.pairwise_cons.2 ⟨?_, hp'⟩, aT', ?_⟩
        · intro b hb2
          obtain ⟨a, ha, rfl⟩ := hfrom b hb2
          have := hp1 a (by simp [ha])
          omega
        · intro b hb2
          rcases List.mem_cons.1 hb2 with rfl | hb2
          · have h3 : height T' ≤ h1 := by
              match rest, hlr with
              | h3 :: rest', _ =>
                have := hT' h3 (by simp)
                have := hp1 h3 (by simp)
                omega
            omega
          · exact hb' b hb2
      · intro b hb2
        rcases List.mem_cons.1 hb2 with rfl | hb2
        · exact ⟨h1, by simp, rfl⟩
        · obtain ⟨a, ha, rfl⟩ := hfrom b hb2
          exact ⟨a, by simp [ha], rfl⟩
      · intro a ha
        rcases List.mem_cons.1 ha with rfl | ha
        · match rest, hlr with
          | h3 :: rest', _ =>
            have := hT' h3 (by simp)
            have := hp1 h3 (by simp)
            omega
        rcases List.mem_cons.1 ha with rfl | ha
        · match rest, hlr with
          | h3 :: rest', _ =>
            have := hT' h3 (by simp)
            have := hp2 h3 (by simp)
            omega
        · exact hT' a ha

theorem Spine.chain (xs : List α) :
    Spine (List.replicate xs.length 0) .null (chain xs) := by
  induction xs with
  | nil => rfl
  | cons x xs ih => exact ⟨.null, x, AvlTree.chain xs, rfl, AVL_null, rfl, ih⟩

theorem node_height_chain (xs : List α) :
    avltree_node_height (chain xs) = 0 ∨ avltree_node_height (chain xs) = -1 := by
  cases xs with
  | nil => right; rfl
  | cons x xs => left; rfl

/-- The first pass of `compress` in `avlnode_from_list`, over the first `2 * k` nodes of
the list: it finds all the nodes it dereferences and leaves a spine whose first `k` nodes
have the cached height 1 and a leaf as left child, the other nodes being as they were. -/
theorem compress_first : ∀ (k : Nat) (xs : List α), 2 * k ≤ xs.length →
    ∃ t' hs, compress (chain xs) k = some t' ∧ Spine hs .null t' ∧
      hs.length = xs.length - k ∧ hs.Pairwise (fun a b => b ≤ a) ∧
      (∀ b ∈ hs, 0 ≤ b ∧ b ≤ 1) ∧
      (k < xs.length → hs.head? = some (if k = 0 then 0 else 1)) := by
  intro k
  induction k with
  | zero =>
    intro xs _
    refine ⟨chain xs, List.replicate xs.length 0, compress_zero _, Spine.chain xs, by simp,
      ?_, ?_, ?_⟩
    · rw [List.pairwise_replicate]; right; exact le_refl _
    · intro b hb
      rw [List.mem_replicate] at hb
      omega
    · intro hlt
      cases xs with
      | nil => simp at hlt
      | cons x xs => simp [List.replicate]
  | succ k ih =>
    intro xs hl
    match xs, hl with
    | x1 :: x2 :: rest, hl =>
      have hlr : 2 * k ≤ rest.length := by simp at hl; omega
      obtain ⟨t'', hs'', e, hsp, hlen, hp, hb, -⟩ := ih rest hlr
      rw [chain, chain, compress_succ, e, Option.map_some']
      refine ⟨.mk (.mk .null x1 0 .null) x2 (imax 0 (avltree_node_height (chain rest)) + 1) t'',
        1 :: hs'', rfl, ?_, ?_, ?_, ?_, by simp⟩
      · refine ⟨.mk .null x1 0 .null, x2, t'', ?_,
          (AVL_mk_iff _ _ _ _).2 ⟨AVL_null, AVL_null, by simp, by simp, by simp⟩, rfl, hsp⟩
        rw [imax_eq]
        rcases node_height_chain rest with h | h <;> rw [h] <;> rfl
      · simp only [List.length_cons, hlen]; omega
      · exact List.pairwise_cons.2 ⟨fun b hb' => (hb b hb').2, hp⟩
      · intro b hb'
        rcases List.mem_cons.1 hb' with rfl | hb'
        · omega
        · exact hb b hb'

theorem from_list_loop_le_one (t : avlnode α) (size : Nat) (h : size ≤ 1) :
    from_list_loop t size = some t := by
  rw [from_list_loop, if_neg (by omega)]

theorem from_list_loop_gt_one (t : avlnode α) (size : Nat) (h : 1 < size) :
    from_list_loop t size =
      match compress t (size / 2) with
      | some r' => from_list_loop r' (size / 2)
      | none => none := by
  rw [from_list_loop, if_pos h]

/-- The loop of `avlnode_from_list` keeps the in-order sequence. -/
theorem from_list_loop_inorder : ∀ (size : Nat) (t t' : avlnode α),
    from_list_loop t size = some t' → inorder t' = inorder t := by
  intro size
  induction size using Nat.strong_induction_on with
  | _ size ih =>
    intro t t' h
    by_cases c : 1 < size
    · rw [from_list_loop_gt_one t size c] at h
      cases e : compress t (size / 2) with
      | none => rw [e] at h; cases h
      | some r' =>
        rw [e] at h
        rw [ih (size / 2) (by omega) r' t' h, compress_inorder _ _ _ e]
    · rw [from_list_loop_le_one t size (by omega)] at h
      cases h
      rfl

/-- The loop of `avlnode_from_list` on a spine of `2 ^ (j + 1) - 1` nodes: every pass finds
the nodes it dereferences, and the loop ends with an AVL tree whose height, cached at the
root too, is the cached height at the head of the spine plus `j`. -/
theorem from_list_loop_spec : ∀ (j : Nat) (hs : List Int) (T t : avlnode α),
    hs.length = 2 ^ (j + 1) - 1 → Spine hs T t → SpineInv hs T →
    ∃ t' h0, hs.head? = some h0 ∧ from_list_loop t (2 ^ (j + 1) - 1) = some t' ∧ AVL t' ∧
      height t' = h0 + j ∧ avltree_node_height t' = h0 + j := by
  intro j
  induction j with
  | zero =>
    intro hs T t hl hsp hi
    match hs, hl with
    | [h], _ =>
      have := Spine.single hsp hi
      exact ⟨t, h, rfl, from_list_loop_le_one t _ (by norm_num), this.1, by simpa using this.2.1,
        by simpa using this.2.2⟩
  | succ j ih =>
    intro hs T t hl hsp hi
    have hpow : 2 ^ (j + 1 + 1) = 2 * 2 ^ (j + 1) := by rw [pow_succ]; ring
    have hpos : 1 ≤ 2 ^ j := Nat.one_le_two_pow
    have hpow1 : 2 ^ (j + 1) = 2 * 2 ^ j := by rw [pow_succ]; ring
    have hk : (2 ^ (j + 1 + 1) - 1) / 2 = 2 ^ (j + 1) - 1 := by omega
    have hl2 : hs.length = 2 * (2 ^ (j + 1) - 1) + 1 := by omega
    obtain ⟨t1, hs1, T1, e, hsp1, hl1, hi1, -, -, -, hhead⟩ :=
      compress_pass (2 ^ (j + 1) - 1) hs T t hl2 hsp hi
    obtain ⟨t', h1, e1, e2, a', ht', hc'⟩ := ih hs1 T1 t1 hl1 hsp1 hi1
    rw [from_list_loop_gt_one _ _ (by omega), hk, e]
    simp only []
    have hh := hhead (by omega)
    rw [e1] at hh
    cases hd : hs.head? with
    | none => rw [hd] at hh; cases hh
    | some h0 =>
      rw [hd] at hh
      simp only [Option.map_some', Option.some.injEq] at hh
      refine ⟨t', h0, rfl, e2, a', ?_, ?_⟩
      · rw [ht', hh]; push_cast; ring
      · rw [hc', hh]; push_cast; ring

/-- Arithmetic of `avlnode_from_list` for a size `n >= 1` with `n + 1 < 2 ^ 31`: the
exponent `pow` is at least 1 and below 31, and `floor(log2(n))` is `pow - 1` when there are
no leaves to pull up, `pow` otherwise. -/
theorem from_list_arith (n : Nat) (hn : 1 ≤ n) (hb : n + 1 < 2 ^ 31) :
    ∃ k, Nat.log 2 (n + 1) = k + 1 ∧ k + 1 < 31 ∧ 2 ^ (k + 1) ≤ n + 1 ∧
      n + 1 < 2 * 2 ^ (k + 1) ∧
      Nat.log 2 n = (if n + 1 - 2 ^ (k + 1) = 0 then 0 else 1) + k := by
  have hpos : 0 < Nat.log 2 (n + 1) := Nat.log_pos (by norm_num) (by omega)
  obtain ⟨k, hk⟩ : ∃ k, Nat.log 2 (n + 1) = k + 1 := ⟨Nat.log 2 (n + 1) - 1, by omega⟩
  have h1 : 2 ^ (k + 1) ≤ n + 1 := by
    rw [← hk]; exact Nat.pow_log_le_self 2 (by omega)
  have h2 : n + 1 < 2 * 2 ^ (k + 1) := by
    have := Nat.lt_pow_succ_log_self (by norm_num : 1 < 2) (n + 1)
    rw [hk, Nat.succ_eq_add_one, pow_succ] at this
    omega
  have h3 : k + 1 < 31 := by
    by_contra hc
    have : 2 ^ 31 ≤ 2 ^ (k + 1) := Nat.pow_le_pow_right (by norm_num) (by omega)
    omega
  refine ⟨k, hk, h3, h1, h2, ?_⟩
  have hk2 : 2 ^ (k + 1) = 2 * 2 ^ k := by rw [pow_succ]; ring
  have hk1 : 1 ≤ 2 ^ k := Nat.one_le_two_pow
  split
  · next h0 =>
    have hn2 : n = 2 ^ (k + 1) - 1 := by omega
    rw [Nat.zero_add]
    apply Nat.log_eq_of_pow_le_of_lt_pow <;> omega
  · next h0 =>
    rw [Nat.add_comm]
    apply Nat.log_eq_of_pow_le_of_lt_pow
    · omega
    · rw [pow_succ]; omega

theorem one_shl_lt (pow : Nat) (h : pow < 31) : one_shl pow = some (2 ^ pow) := by
  rw [one_shl, if_pos h]

theorem one_shl_ge (pow : Nat) (h : 31 ≤ pow) : one_shl pow = none := by
  rw [one_shl, if_neg (by omega)]

/-- What `avlnode_from_list` makes of a right-only chain of `n` nodes with `n + 1 < 2 ^ 31`:
every `compress` step finds the nodes it dereferences, and the result is an AVL tree with the
chain as in-order sequence and, for `n >= 1`, of height `floor(log2(n))`. -/
theorem avlnode_from_list_chain (xs : List α) (hb : xs.length + 1 < 2 ^ 31) :
    ∃ t1 t', compress (chain xs) (xs.length + 1 - 2 ^ Nat.log 2 (xs.length + 1)) = some t1 ∧
      from_list_loop t1 (2 ^ Nat.log 2 (xs.length + 1) - 1) = some t' ∧
      avlnode_from_list (chain xs) xs.length = some t' ∧ AVL t' ∧ inorder t' = xs ∧
      (xs ≠ [] → height t' = Nat.log 2 xs.length) := by
  cases xs with
  | nil =>
    have hl : Nat.log 2 (0 + 1) = 0 := by simp
    refine ⟨.null, .null, ?_, ?_, ?_, AVL_null, rfl, fun h => absurd rfl h⟩
    · simp only [List.length_nil, hl, chain]
      exact compress_zero _
    · exact from_list_loop_le_one _ _ (by simp only [List.length_nil, hl]; norm_num)
    · simp only [avlnode_from_list, List.length_nil, hl, one_shl_lt 0 (by norm_num), chain,
        compress_zero]
      exact from_list_loop_le_one _ _ (by norm_num)
  | cons x xs =>
    obtain ⟨k, hk, hk31, h1, h2, hlog⟩ := from_list_arith (x :: xs).length (by simp) hb
    generalize hys : x :: xs = ys at *
    have hne : ys ≠ [] := by rw [← hys]; simp
    obtain ⟨t1, hs, e1, hsp, hlen, hpw, hbd, hhead⟩ :=
      compress_first (ys.length + 1 - 2 ^ (k + 1)) ys (by omega)
    have hlen2 : hs.length = 2 ^ (k + 1) - 1 := by omega
    have hinv : SpineInv hs (.null : avlnode α) := by
      refine ⟨hpw, AVL_null, fun b hb' => ?_⟩
      have := hbd b hb'
      simp only [height_null]
      omega
    obtain ⟨t', h0, eh, e2, a', ht', -⟩ := from_list_loop_spec k hs .null t1 hlen2 hsp hinv
    have hsz : ys.length - (ys.length + 1 - 2 ^ (k + 1)) = 2 ^ (k + 1) - 1 := by omega
    refine ⟨t1, t', ?_, ?_, ?_, a', ?_, fun _ => ?_⟩
    · rw [hk]; exact e1
    · rw [hk]; exact e2
    · simp only [avlnode_from_list, hk, one_shl_lt (k + 1) hk31, e1, hsz]
      exact e2
    · rw [from_list_loop_inorder _ _ _ e2, compress_inorder _ _ _ e1, inorder_chain]
    · rw [hhead (by omega)] at eh
      simp only [Option.some.injEq] at eh
      rw [ht', hlog, ← eh]
      split <;> simp

/-- The shift `1 << pow` of `avlnode_from_list` is an `int` shift: for a list of
`2 ^ 31 - 1` nodes or more the exponent is 31 or more and the shift has no defined value. -/
theorem avlnode_from_list_overflow (r : avlnode α) (size : Nat) (h : 2 ^ 31 ≤ size + 1) :
    avlnode_from_list r size = none := by
  have hl : 31 ≤ Nat.log 2 (size + 1) :=
    (Nat.pow_le_iff_le_log (by norm_num) (by omega)).1 h
  simp only [avlnode_from_list, one_shl_ge _ hl]

theorem non_null_iff (t : avlnode α) : non_null t = true ↔ inorder t ≠ [] := by
  cases t <;> simp [non_null]

/-- The function `avltree_balance` in terms of the in-order sequence of the tree:
`avlnode_to_list` hands the right-only chain of the nodes and their number to
`avlnode_from_list`. -/
theorem avltree_balance_eq (tree : avltree α) (h : inorder tree.root ≠ [])
    (hsz : node_count tree.root < SIZE_MOD) :
    avltree_balance tree =
      (avlnode_from_list (chain (inorder tree.root)) (node_count tree.root)).map
        (fun r => { tree with root := r }) := by
  rw [avltree_balance, if_pos ((non_null_iff _).2 h)]
  simp only [avlnode_to_list_eq tree.root 0 (by norm_num [SIZE_MOD]), Nat.zero_add,
    Nat.mod_eq_of_lt hsz]
  cases avlnode_from_list (chain (inorder tree.root)) (node_count tree.root) <;> rfl

theorem avltree_balance_null (tree : avltree α) (h : inorder tree.root = []) :
    avltree_balance tree = some tree := by
  rw [avltree_balance, if_neg]
  rw [non_null_iff]
  simpa using h

/-- What `avltree_balance` does to a tree of `n` nodes with `n + 1 < 2 ^ 31`, whatever its
shape and cached heights: it returns, only the root link of the handle changes, the new tree
is an AVL tree with the same in-order sequence (so the same number of nodes) and, for
`n >= 1`, its height is `floor(log2(n))`. -/
theorem avltree_balance_small (tree : avltree α) (hb : node_count tree.root + 1 < 2 ^ 31) :
    ∃ r, avltree_balance tree = some { tree with root := r } ∧ AVL r ∧
      inorder r = inorder tree.root ∧
      (tree.root ≠ .null → height r = Nat.log 2 (node_count tree.root) ∧
        avltree_node_height r = Nat.log 2 (node_count tree.root)) := by
  by_cases h : inorder tree.root = []
  · refine ⟨tree.root, avltree_balance_null tree h, ?_, rfl, fun hn => ?_⟩
    · cases e : tree.root with
      | null => exact AVL_null
      | mk l n hh r => rw [e] at h; simp at h
    · cases e : tree.root with
      | null => exact absurd e hn
      | mk l n hh r => rw [e] at h; simp at h
  · have hlen := node_count_eq tree.root
    obtain ⟨-, t', -, -, e, a', hi, hh⟩ :=
      avlnode_from_list_chain (inorder tree.root) (by omega)
    refine ⟨t', ?_, a', hi, fun _ => ?_⟩
    · rw [avltree_balance_eq tree h (by simp only [SIZE_MOD]; omega), hlen, e]
      rfl
    · rw [AVL.cached a', hlen]
      exact ⟨hh h, hh h⟩

/-- Running `avltree_balance` twice on a tree of `n` nodes with `n + 1 < 2 ^ 31`: both runs
return and the second one gives back the tree of the first, links and cached heights. -/
theorem avltree_balance_twice_small (tree : avltree α)
    (hb : node_count tree.root + 1 < 2 ^ 31) :
    ∃ t1, avltree_balance tree = some t1 ∧ avltree_balance t1 = some t1 := by
  by_cases h : inorder tree.root = []
  · exact ⟨tree, avltree_balance_null tree h, avltree_balance_null tree h⟩
  · have hlen := node_count_eq tree.root
    obtain ⟨-, t', -, -, e, a', hi, -⟩ :=
      avlnode_from_list_chain (inorder tree.root) (by omega)
    have hsz : node_count tree.root < SIZE_MOD := by simp only [SIZE_MOD]; omega
    have e1 : avltree_balance tree = some { tree with root := t' } := by
      rw [avltree_balance_eq tree h hsz, hlen, e]; rfl
    refine ⟨_, e1, ?_⟩
    have hc : node_count t' = node_count tree.root := by
      rw [node_count_eq, node_count_eq, hi]
    rw [avltree_balance_eq _ (by simpa only [hi] using h) (by simpa only [hc] using hsz)]
    simp only [hi, hc, hlen, e]
    rfl

/-- For a tree of `2 ^ 31 - 1` nodes or more (and fewer than `2 ^ 64`), `avltree_balance`
reaches the undefined `int` shift of `avlnode_from_list` and returns no tree. -/
theorem avltree_balance_overflow (tree : avltree α) (h : 2 ^ 31 ≤ node_count tree.root + 1)
    (hsz : node_count tree.root < SIZE_MOD) : avltree_balance tree = none := by
  have hne : inorder tree.root ≠ [] := by
    intro e
    have := node_count_eq tree.root
    rw [e] at this
    simp only [List.length_nil] at this
    omega
  rw [avltree_balance_eq tree hne hsz, avlnode_from_list_overflow _ _ h]
  rfl

/-! ## Claims on global rebalancing -/

/-- A tree of height `h` has at most `2 ^ (h + 1) - 1` nodes. -/
theorem node_count_lt_two_pow (t : avlnode α) :
    node_count t + 1 ≤ 2 ^ (height t + 1).toNat := by
  induction t with
  | null => simp [node_count]
  | mk l n h r ihl ihr =>
    have hl := height_ge l
    have hr := height_ge r
    have e : (height (.mk l n h r) + 1).toNat = (max (height l) (height r) + 1).toNat + 1 := by
      rw [height_mk]; omega
    have ml : 2 ^ (height l + 1).toNat ≤ 2 ^ (max (height l) (height r) + 1).toNat :=
      Nat.pow_le_pow_right (by norm_num) (by omega)
    have mr : 2 ^ (height r + 1).toNat ≤ 2 ^ (max (height l) (height r) + 1).toNat :=
      Nat.pow_le_pow_right (by norm_num) (by omega)
    rw [e, pow_succ]
    simp only [node_count]
    omega

/-- No tree of `n >= 1` nodes is lower than `floor(log2(n))`. -/
theorem log_le_height (t : avlnode α) (h : t ≠ .null) :
    (Nat.log 2 (node_count t) : Int) ≤ height t := by
  have h1 := node_count_lt_two_pow t
  have h2 := height_ge t
  have hn : node_count t ≠ 0 := by
    cases t with
    | null => exact absurd rfl h
    | mk l n hh r => simp only [node_count]; omega
  have := Nat.log_lt_of_lt_pow hn (by omega : node_count t < 2 ^ (height t + 1).toNat)
  omega

/-- A `compress` pass of `k` steps over a chain of fewer than `2 * k` nodes runs past the end
of the chain. -/
theorem compress_chain_short : ∀ (k : Nat) (xs : List α), xs.length < 2 * k →
    compress (chain xs) k = none := by
  intro k
  induction k with
  | zero => intro xs h; omega
  | succ k ih =>
    intro xs h
    match xs, h with
    | [], _ => rfl
    | [_], _ => rfl
    | x1 :: x2 :: rest, h =>
      rw [chain, chain, compress_succ, ih rest (by simp at h; omega)]
      rfl

theorem compress_vine_short (n k : Nat) (h : n < 2 * k) : compress (vine n).root k = none :=
  compress_chain_short k (List.range n) (by rw [List.length_range]; exact h)

theorem node_count_vine (n : Nat) : node_count (vine n).root = n := by
  rw [vine, node_count_chain, List.length_range]

theorem inorder_vine (n : Nat) : inorder (vine n).root = List.range n := inorder_chain _

/-- The right-only chain of `n` nodes, `2 ^ 31 - 1 <= n < 2 ^ 64`: `avltree_balance` returns
no tree. -/
theorem avltree_balance_vine_overflow (n : Nat) (h : 2 ^ 31 ≤ n + 1) (hsz : n < SIZE_MOD) :
    avltree_balance (vine n) = none :=
  avltree_balance_overflow (vine n) (by rw [node_count_vine]; exact h)
    (by rw [node_count_vine]; exact hsz)

/-- The right-only chain of 7 nodes: `avltree_balance` returns the perfect tree of height 2
with the cached heights 2, 1, 0. -/
theorem avltree_balance_vine_7 :
    avltree_balance (vine 7) = some
      { root := .mk (.mk (.mk .null 0 0 .null) 1 1 (.mk .null 2 0 .null)) 3 2
          (.mk (.mk .null 4 0 .null) 5 1 (.mk .null 6 0 .null)),
        count := 7, ref := none } := by
  have hn : inorder (vine 7).root ≠ [] := by decide
  rw [avltree_balance_eq _ hn (by decide)]
  have hc : node_count (vine 7).root = 7 := by decide
  have hi : inorder (vine 7).root = [0, 1, 2, 3, 4, 5, 6] := by decide
  have hl : Nat.log 2 (7 + 1) = 3 := Nat.log_eq_of_pow_le_of_lt_pow (by norm_num) (by norm_num)
  rw [hc, hi, avlnode_from_list, hl]
  simp only [one_shl_lt 3 (by norm_num)]
  norm_num only [compress_zero]
  rw [from_list_loop_gt_one _ _ (by norm_num)]
  norm_num only [chain, compress_succ, compress_zero, Option.map_some']
  rw [from_list_loop_gt_one _ _ (by norm_num)]
  norm_num only [chain, compress_succ, compress_zero, Option.map_some', imax, avltree_node_height]
  rw [from_list_loop_le_one _ _ (by norm_num)]
  rfl

/-- Claim C13, at the right-only chain of `2 ^ 31 - 1` nodes: `avltree_balance` does not
return an AVL tree, because it returns no tree at all: the list has `2 ^ 31 - 1` nodes, the
exponent `pow` of `avlnode_from_list` is 31 and the `int` shift `1 << 31` is undefined. -/
theorem avltree_balance_overflow_no_AVL :
    ¬ ∃ t, avltree_balance (vine (2 ^ 31 - 1)) = some t ∧ AVL t.root := by
  rintro ⟨t, e, -⟩
  rw [avltree_balance_vine_overflow (2 ^ 31 - 1) (by norm_num) (by norm_num [SIZE_MOD])] at e
  cases e

/-- Claim C14, at the right-only chain of `n = 2 ^ 31 - 1` nodes: `avltree_balance` does not
return a tree of height `floor(log2(n)) = 30`, real or cached at the root, because it
returns no tree at all (the `int` shift `1 << 31` of `avlnode_from_list` is undefined). -/
theorem avltree_balance_overflow_no_height :
    Nat.log 2 (node_count (vine (2 ^ 31 - 1)).root) = 30 ∧
    ¬ ∃ t, avltree_balance (vine (2 ^ 31 - 1)) = some t ∧
      (height t.root = 30 ∨ avltree_node_height t.root = 30) := by
  constructor
  · rw [node_count_vine]
    exact Nat.log_eq_of_pow_le_of_lt_pow (by norm_num) (by norm_num)
  · rintro ⟨t, e, -⟩
    rw [avltree_balance_vine_overflow (2 ^ 31 - 1) (by norm_num) (by norm_num [SIZE_MOD])] at e
    cases e

/-- Claim C15, at the right-only chain of `n = 2 ^ 31 - 1` nodes: `avlnode_to_list` hands
on the chain of the `n` nodes and the size `n`, as claimed, but `avltree_balance` does not
return a tree with the same in-order sequence and count, because it returns no tree at all
(the `int` shift `1 << 31` of `avlnode_from_list` is undefined). -/
theorem avltree_balance_overflow_no_inorder :
    avlnode_to_list (vine (2 ^ 31 - 1)).root 0 =
      (chain (inorder (vine (2 ^ 31 - 1)).root), 2 ^ 31 - 1) ∧
    ¬ ∃ t, avltree_balance (vine (2 ^ 31 - 1)) = some t ∧
      inorder t.root = inorder (vine (2 ^ 31 - 1)).root ∧
      t.count = (vine (2 ^ 31 - 1)).count := by
  constructor
  · rw [avlnode_to_list_eq _ 0 (by norm_num [SIZE_MOD]), node_count_vine]
    norm_num [SIZE_MOD]
  · rintro ⟨t, e, -⟩
    rw [avltree_balance_vine_overflow (2 ^ 31 - 1) (by norm_num) (by norm_num [SIZE_MOD])] at e
    cases e

/-- Claim C16, at the right-only chain of `2 ^ 31 - 1` nodes: there is no tree that a first
run of `avltree_balance` returns and a second run gives back, because the first run returns
no tree at all (the `int` shift `1 << 31` of `avlnode_from_list` is undefined). -/
theorem avltree_balance_overflow_no_second_run :
    ¬ ∃ t1 t2, avltree_balance (vine (2 ^ 31 - 1)) = some t1 ∧ avltree_balance t1 = some t2 ∧
      t2 = t1 := by
  rintro ⟨t1, t2, e, -⟩
  rw [avltree_balance_vine_overflow (2 ^ 31 - 1) (by norm_num) (by norm_num [SIZE_MOD])] at e
  cases e

/-- Claim C19, counterexample: a chain of `2 ^ 31 - 1` nodes is of size below `2 ^ 31`, yet
the exponent `pow` is 31, the `int` shift `1 << pow` overflows and `avlnode_from_list` has no
defined result; with the value `-2 ^ 31` that the shift gives on machines where it wraps,
`leaves` is `2 ^ 31 - 1 + 1 + 2 ^ 31` and the first `compress` pass runs past the end of the
chain. -/
theorem avlnode_from_list_overflow_below_bound :
    2 ^ 31 - 1 < 2 ^ 31 ∧ Nat.log 2 (2 ^ 31 - 1 + 1) = 31 ∧ one_shl 31 = none ∧
    avlnode_from_list (vine (2 ^ 31 - 1)).root (2 ^ 31 - 1) = none ∧
    compress (vine (2 ^ 31 - 1)).root (2 ^ 31 - 1 + 1 + 2 ^ 31) = none := by
  refine ⟨by norm_num, ?_, one_shl_ge 31 (le_refl 31), ?_, ?_⟩
  · exact Nat.log_eq_of_pow_le_of_lt_pow (by norm_num) (by norm_num)
  · exact avlnode_from_list_overflow (vine (2 ^ 31 - 1)).root (2 ^ 31 - 1) (by norm_num)
  · exact compress_vine_short (2 ^ 31 - 1) (2 ^ 31 - 1 + 1 + 2 ^ 31) (by norm_num)

/-- Claim C19, amended: for every right-only chain of exactly `size` nodes hanging from the
pseudo-root with `size + 1 < 2 ^ 31` (so that `1 << pow` does not overflow),
`avlnode_from_list` never runs past the end of the chain: the `compress` pass for
`leaves = size + 1 - 2 ^ floor(log2(size + 1))` and every later pass of `size / 2` steps find
both nodes they dereference at each step, so that the function returns a tree; it holds the
nodes of the chain in the same order. -/
theorem avlnode_from_list_in_bounds (xs : List α) (hb : xs.length + 1 < 2 ^ 31) :
    ∃ t1 t', compress (chain xs) (xs.length + 1 - 2 ^ Nat.log 2 (xs.length + 1)) = some t1 ∧
      from_list_loop t1 (2 ^ Nat.log 2 (xs.length + 1) - 1) = some t' ∧
      avlnode_from_list (chain xs) xs.length = some t' ∧ inorder t' = xs := by
  obtain ⟨t1, t', e1, e2, e, -, hi, -⟩ := avlnode_from_list_chain xs hb
  exact ⟨t1, t', e1, e2, e, hi⟩

theorem avlnode_from_list_in_bounds_witness :
    ([0, 1, 2, 3, 4] : List Nat).length + 1 < 2 ^ 31 ∧
    ∃ t1 t', compress (chain [0, 1, 2, 3, 4])
        (([0, 1, 2, 3, 4] : List Nat).length + 1 -
          2 ^ Nat.log 2 (([0, 1, 2, 3, 4] : List Nat).length + 1)) = some t1 ∧
      from_list_loop t1 (2 ^ Nat.log 2 (([0, 1, 2, 3, 4] : List Nat).length + 1) - 1) = some t' ∧
      avlnode_from_list (chain [0, 1, 2, 3, 4]) ([0, 1, 2, 3, 4] : List Nat).length = some t' ∧
      inorder t' = [0, 1, 2, 3, 4] :=
  ⟨by norm_num, avlnode_from_list_in_bounds [0, 1, 2, 3, 4] (by norm_num)⟩

end AvlTree
